import Mathlib

/-!
Smart meeting scheduler: availability search and slot scoring.

A shallow embedding of `services/scheduler.go` (`findAvailableSlots`, `ScoreSlot`
and the selection tail of `FindOptimalSlot`) together with the parts of Go's
`time` and `sort` packages that these functions call.

Modelling conventions.

* An instant (`time.Time`) is its number of nanoseconds since the Unix epoch, an
  unbounded integer, paired with the location that `Hour` reads the clock in.
  `Before`, `After`, `Equal` and `Sub` look at the instant only, as in Go.
* `time.Duration` is a signed 64-bit count of nanoseconds; `Time.Sub` saturates at
  the two ends of that range, as in Go.
* `sort.Slice` is not stable and its algorithm is not part of the program; it is
  a parameter (`SortSlice`) constrained by its contract: the result is a
  permutation of the input in which no element is `less` than an earlier one.
  `insertionSorter` and `slotSorter` are executable instances.
* The only loop of the program that is not a `range` loop is the trailing loop of
  `findAvailableSlots`; it is modelled with an explicit budget of body executions
  and returns `none` when the budget is exhausted.
* `TimeSlot.Score` is a `float64` in the source. Every value the program stores in
  it is `100` plus a sum of the integers `±5, ±10, ±15, ±20, ±25, ±30`, which
  `float64` represents exactly, so the score is modelled as an integer.
-/

namespace services

/-! ## `time` -/

/-- One second, in nanoseconds (`time.Second`). -/
def Second : Int := 1000000000

/-- One minute, in nanoseconds (`time.Minute`). -/
def Minute : Int := 60 * Second

/-- The least `time.Duration` (`math.MinInt64`). -/
def minDuration : Int := -9223372036854775808

/-- The greatest `time.Duration` (`math.MaxInt64`). -/
def maxDuration : Int := 9223372036854775807

/-- A `time.Duration`: a signed 64-bit number of nanoseconds. -/
structure Duration where
  ns : Int
  lo : minDuration ≤ ns
  hi : ns ≤ maxDuration

/-- A `time.Location`: the zone offset, in seconds east of UTC, in effect at a
given Unix second. -/
structure Location where
  lookup : Int → Int

/-- The location `time.UTC`. -/
def UTC : Location := ⟨fun _ => 0⟩

/-- A `time.Time`: an instant together with the location it is displayed in. -/
structure Time where
  ns : Int
  loc : Location

namespace Time

/-- Go `t.Before(u)`. -/
def Before (t u : Time) : Bool := decide (t.ns < u.ns)

/-- Go `t.After(u)`. -/
def After (t u : Time) : Bool := decide (u.ns < t.ns)

/-- Go `t.Equal(u)`. -/
def Equal (t u : Time) : Bool := decide (t.ns = u.ns)

/-- Go `t.Add(d)`; the location is kept. -/
def Add (t : Time) (d : Duration) : Time := { t with ns := t.ns + d.ns }

/-- Go `t.Sub(u)`: the difference `t - u`, saturated to the range of `Duration`. -/
def Sub (t u : Time) : Duration :=
  if h1 : t.ns - u.ns < minDuration then ⟨minDuration, le_refl _, by decide⟩
  else if h2 : maxDuration < t.ns - u.ns then ⟨maxDuration, by decide, le_refl _⟩
  else ⟨t.ns - u.ns, not_lt.mp h1, not_lt.mp h2⟩

/-- Go `t.Hour()`: the hour of the day, `0..23`, on the clock of `t`'s location. -/
def Hour (t : Time) : Int :=
  let sec := t.ns / Second
  ((sec + t.loc.lookup sec) % 86400) / 3600

end Time

/-! ## `sort.Slice` -/

/-- The contract of Go's `sort.Slice(x, less)`: `run` rearranges the slice, and
afterwards no element is `less` than one that precedes it. Nothing is promised
about the relative order of elements neither of which is `less` than the other. -/
structure SortSlice (α : Type) (less : α → α → Bool) where
  run : List α → List α
  perm : ∀ l, (run l).Perm l
  sorted : ∀ l, (run l).Pairwise (fun a b => less b a = false)

/-! ## Data model -/

/-- The two fields of `models.Event` that the scheduler reads. -/
structure Event where
  StartTime : Time
  EndTime : Time

/-- The scheduler's `TimeSlot`. -/
structure TimeSlot where
  Start : Time
  End : Time
  Score : Int

/-- The local type `busyPeriod` of `findAvailableSlots`. -/
structure busyPeriod where
  start : Time
  end_ : Time

/-- The instants of a slot, `(Start, End)`, in nanoseconds. -/
def TimeSlot.span (s : TimeSlot) : Int × Int := (s.Start.ns, s.End.ns)

/-- The instants of a busy period, `(start, end)`, in nanoseconds. -/
def busyPeriod.span (b : busyPeriod) : Int × Int := (b.start.ns, b.end_.ns)

/-! ## `findAvailableSlots` -/

/-- Lines 85-90: one busy period per event. -/
def busyPeriodsOf (events : List Event) : List busyPeriod :=
  events.map (fun event => { start := event.StartTime, end_ := event.EndTime })

/-- The `less` function of the sort at lines 94-96. -/
def busyLess (a b : busyPeriod) : Bool := a.start.Before b.start

/-- The body of the merge loop, lines 101-110. -/
def mergeStep (mergedPeriods : List busyPeriod) (period : busyPeriod) : List busyPeriod :=
  match mergedPeriods.getLast? with
  | none => mergedPeriods ++ [period]
  | some last =>
    if last.end_.Before period.start then mergedPeriods ++ [period]
    else if period.end_.After last.end_ then
      mergedPeriods.dropLast ++ [{ last with end_ := period.end_ }]
    else mergedPeriods

/-- Lines 92-110: sort the busy periods by start, then fold them into
`mergedPeriods`. -/
def mergePeriods (S : SortSlice busyPeriod busyLess) (busyPeriods : List busyPeriod) :
    List busyPeriod :=
  (S.run busyPeriods).foldl mergeStep []

/-- The body of the gap loop, lines 115-134, on the pair `(current, slots)`. -/
def gapStep (duration : Duration) (st : Time × List TimeSlot) (busy : busyPeriod) :
    Time × List TimeSlot :=
  let current := st.1
  let slots := st.2
  let slots :=
    if busy.start.After current then
      let gapEnd := busy.start
      if duration.ns ≤ (gapEnd.Sub current).ns then
        let slotEnd := current.Add duration
        if slotEnd.Before gapEnd || slotEnd.Equal gapEnd then
          slots ++ [{ Start := current, End := slotEnd, Score := 0 }]
        else slots
      else slots
    else slots
  let current := if busy.end_.After current then busy.end_ else current
  (current, slots)

/-- The trailing loop, lines 137-147. `fuel` bounds the number of times the body
may run to its end; the loop test and the `break` cost nothing. The result is
`none` when the budget does not suffice. -/
def trailingLoop (end_ : Time) (duration : Duration) :
    Nat → Time → List TimeSlot → Option (List TimeSlot)
  | fuel, current, slots =>
    if duration.ns ≤ (end_.Sub current).ns then
      let slotEnd := current.Add duration
      if slotEnd.After end_ then some slots
      else
        match fuel with
        | 0 => none
        | fuel + 1 =>
          trailingLoop end_ duration fuel (current.Add duration)
            (slots ++ [{ Start := current, End := slotEnd, Score := 0 }])
    else some slots

/-- The state `(current, slots)` after the gap loop, lines 113-134. -/
def sweep (S : SortSlice busyPeriod busyLess) (start : Time) (duration : Duration)
    (events : List Event) : Time × List TimeSlot :=
  (mergePeriods S (busyPeriodsOf events)).foldl (gapStep duration) (start, [])

/-- The function `findAvailableSlots`, lines 72-150. -/
def findAvailableSlots (S : SortSlice busyPeriod busyLess) (fuel : Nat) (start end_ : Time)
    (duration : Duration) (events : List Event) : Option (List TimeSlot) :=
  let st := sweep S start duration events
  trailingLoop end_ duration fuel st.1 st.2

/-! ## `ScoreSlot` -/

/-- The constant `bufferTime := 15 * time.Minute`. -/
def bufferTime : Int := 15 * Minute

/-- The body of the first loop of `ScoreSlot`, lines 177-198. -/
def bufferStep (slot : TimeSlot) (score : Int) (event : Event) : Int :=
  let gapBefore := (slot.Start.Sub event.EndTime).ns
  let score :=
    if 0 < gapBefore ∧ gapBefore < bufferTime then score - 20
    else if 0 < gapBefore ∧ gapBefore < 30 * Minute then score - 10
    else score
  let gapAfter := (event.StartTime.Sub slot.End).ns
  let score :=
    if 0 < gapAfter ∧ gapAfter < bufferTime then score - 20
    else if 0 < gapAfter ∧ gapAfter < 30 * Minute then score - 10
    else score
  if gapBefore = 0 ∨ gapAfter = 0 then score + 5 else score

/-- The body of the second loop of `ScoreSlot`, lines 202-212. -/
def fragmentStep (slot : TimeSlot) (score : Int) (event : Event) : Int :=
  let timeBetween := (event.StartTime.Sub slot.End).ns
  let score := if 0 < timeBetween ∧ timeBetween < 30 * Minute then score - 15 else score
  let timeBefore := (slot.Start.Sub event.EndTime).ns
  if 0 < timeBefore ∧ timeBefore < 30 * Minute then score - 15 else score

/-- The function `ScoreSlot`, lines 152-215. -/
def ScoreSlot (slot : TimeSlot) (events : List Event) : Int :=
  let score : Int := 100
  let hour := slot.Start.Hour
  let score :=
    if 9 ≤ hour ∧ hour ≤ 12 then score + 20
    else if 13 ≤ hour ∧ hour ≤ 17 then score + 10
    else score - 30
  let score := if 9 ≤ hour ∧ hour < 17 then score + 15 else score - 25
  let score := events.foldl (bufferStep slot) score
  let score := events.foldl (fragmentStep slot) score
  score

/-! ## `FindOptimalSlot` -/

/-- The `less` function of the sort at lines 62-67. -/
def slotLess (a b : TimeSlot) : Bool :=
  if a.Score = b.Score then a.Start.Before b.Start else decide (b.Score < a.Score)

/-- Lines 57-59 of `FindOptimalSlot`: every slot is given its score. -/
def scoreSlots (availableSlots : List TimeSlot) (events : List Event) : List TimeSlot :=
  availableSlots.map (fun s => { s with Score := ScoreSlot s events })

/-- Lines 62-69 of `FindOptimalSlot`: the sort and the choice of element `0`.
Indexing an empty slice is the run-time error. -/
def rankFirst (T : SortSlice TimeSlot slotLess) (availableSlots : List TimeSlot) :
    Except String (Option TimeSlot) :=
  match T.run availableSlots with
  | [] => Except.error "index out of range"
  | c :: _ => Except.ok (some c)

/-- Lines 52-69 of `FindOptimalSlot`: the empty check, the scoring loop, the sort
and the choice of element `0`. `Except.ok none` is the pair `(nil, nil)`. -/
def selectSlot (T : SortSlice TimeSlot slotLess) (availableSlots : List TimeSlot)
    (events : List Event) : Except String (Option TimeSlot) :=
  if availableSlots.length = 0 then Except.ok none
  else rankFirst T (scoreSlots availableSlots events)

/-- Lines 51-69 of `FindOptimalSlot`, after the window has been parsed and the
events have been fetched. -/
def FindOptimalSlot (S : SortSlice busyPeriod busyLess) (T : SortSlice TimeSlot slotLess)
    (fuel : Nat) (startTime endTime : Time) (duration : Duration) (events : List Event) :
    Option (Except String (Option TimeSlot)) :=
  (findAvailableSlots S fuel startTime endTime duration events).map
    (fun availableSlots => selectSlot T availableSlots events)

/-! ## Executable instances of `sort.Slice` -/

/-- Insertion sort of busy periods by start. -/
def insertionSorter : SortSlice busyPeriod busyLess where
  run := List.insertionSort (fun a b => a.start.ns ≤ b.start.ns)
  perm := List.perm_insertionSort _
  sorted := by
    intro l
    have h := @List.sorted_insertionSort busyPeriod (fun a b => a.start.ns ≤ b.start.ns) _
      ⟨fun a b => le_total a.start.ns b.start.ns⟩
      ⟨fun a b c hab hbc => le_trans hab hbc⟩ l
    refine List.Pairwise.imp ?_ h
    intro a b hab
    simp only [busyLess, Time.Before, decide_eq_false_iff_not, not_lt]
    exact hab

/-- The order the slots are ranked in: higher score first, earlier start first
among equal scores. -/
def slotLE (a b : TimeSlot) : Prop :=
  b.Score < a.Score ∨ (a.Score = b.Score ∧ a.Start.ns ≤ b.Start.ns)

instance : DecidableRel slotLE := fun a b => by unfold slotLE; infer_instance

/-- Insertion sort of slots by rank. -/
def slotSorter : SortSlice TimeSlot slotLess where
  run := List.insertionSort slotLE
  perm := List.perm_insertionSort _
  sorted := by
    intro l
    have h := @List.sorted_insertionSort TimeSlot slotLE _
      ⟨fun a b => by unfold slotLE; omega⟩
      ⟨fun a b c hab hbc => by unfold slotLE at *; omega⟩ l
    refine List.Pairwise.imp ?_ h
    intro a b hab
    unfold slotLE at hab
    unfold slotLess
    split_ifs with he
    · simp only [Time.Before, decide_eq_false_iff_not, not_lt]
      omega
    · simp only [decide_eq_false_iff_not, not_lt]
      omega

/-! ## Helpers for concrete inputs -/

/-- The instant `h:m` on 1 January 1970, UTC. -/
def clock (h m : Int) : Time := ⟨(h * 60 + m) * Minute, UTC⟩

/-- A duration of `m` minutes, for `m` up to a day. -/
def minutes (m : Fin 1441) : Duration :=
  ⟨(m.val : Int) * Minute, by
    have := m.isLt
    simp only [minDuration, Minute, Second]; omega, by
    have := m.isLt
    simp only [maxDuration, Minute, Second]; omega⟩

/-- A location three hours west of UTC. -/
def zoneWest3 : Location := ⟨fun _ => -10800⟩

/-- The instants of the slot that `FindOptimalSlot` chose, if it chose one. -/
def chosenSpan (r : Option (Except String (Option TimeSlot))) : Option (Int × Int) :=
  match r with
  | some (Except.ok (some c)) => some c.span
  | _ => none

/-! ## Invariants used in the proofs -/

/-- What the merge loop maintains: `M` is `mergedPeriods` once the periods `P` have
been processed. -/
structure MergeInv (P M : List busyPeriod) : Prop where
  sep : M.Pairwise (fun a b => a.end_.ns < b.start.ns)
  asc : M.Pairwise (fun a b => a.start.ns ≤ b.start.ns)
  cover : ∀ t : Int, (∃ m ∈ M, m.start.ns ≤ t ∧ t < m.end_.ns) ↔
    (∃ b ∈ P, b.start.ns ≤ t ∧ t < b.end_.ns)
  origin : ∀ m ∈ M, ∃ b ∈ P, m.start.ns = b.start.ns
  absorb : ∀ b ∈ P, ∃ m ∈ M, m.start.ns ≤ b.start.ns ∧ b.end_.ns ≤ m.end_.ns
  avoid : ∀ t e : Int, t < e → (∀ b ∈ P, e ≤ b.start.ns ∨ b.end_.ns ≤ t) →
    ∀ m ∈ M, e ≤ m.start.ns ∨ m.end_.ns ≤ t

/-- The slots `[current + i*duration, current + (i+1)*duration]` for `i < n`, in
that order: what `n` runs of the body of the trailing loop append. -/
def packFrom (duration : Duration) : Nat → Time → List TimeSlot
  | 0, _ => []
  | n + 1, current =>
    { Start := current, End := current.Add duration, Score := 0 } ::
      packFrom duration n (current.Add duration)

/-- The whole part of `(end - current) / duration`, and `0` when `end` is before
`current`. -/
def trailingCount (end_ current : Time) (duration : Duration) : Nat :=
  ((end_.ns - current.ns) / duration.ns).toNat

/-! ## The closed form of the score, in the words of the specification -/

/-- The value `B(h)` of the closed form: what the start hour `h` contributes,
base score included. -/
def closedFormBase (h : Int) : Int :=
  if 9 ≤ h ∧ h ≤ 12 then 135
  else if 13 ≤ h ∧ h ≤ 16 then 125
  else if h = 17 then 85
  else 45

/-- The contribution of an event at gap `g` from the slot, `g` in nanoseconds. -/
def closedFormGap (g : Int) : Int :=
  if g = 0 then 5
  else if 0 < g ∧ g < 15 * Minute then -35
  else if 15 * Minute ≤ g ∧ g < 30 * Minute then -25
  else 0

/-- The value `c(e)` of the closed form: the gap is measured from the end of an
event that ends at or before the slot starts, or to the start of an event that
starts at or after the slot ends; an event that overlaps the slot contributes
nothing. -/
def closedFormEvent (slot : TimeSlot) (e : Event) : Int :=
  if e.EndTime.ns ≤ slot.Start.ns then closedFormGap (slot.Start.ns - e.EndTime.ns)
  else if slot.End.ns ≤ e.StartTime.ns then closedFormGap (e.StartTime.ns - slot.End.ns)
  else 0

end services

namespace services

/-! ## Facts about `time` -/

theorem Time.Sub_ns (t u : Time) :
    (t.ns - u.ns < minDuration ∧ (t.Sub u).ns = minDuration) ∨
    (maxDuration < t.ns - u.ns ∧ (t.Sub u).ns = maxDuration) ∨
    (minDuration ≤ t.ns - u.ns ∧ t.ns - u.ns ≤ maxDuration ∧ (t.Sub u).ns = t.ns - u.ns) := by
  unfold Time.Sub
  by_cases h1 : t.ns - u.ns < minDuration
  · left; simp [h1]
  · by_cases h2 : maxDuration < t.ns - u.ns
    · right; left; simp [h1, h2]
    · right; right
      refine ⟨not_lt.mp h1, not_lt.mp h2, ?_⟩
      simp [h1, h2]

theorem Time.le_Sub_iff (t u : Time) (d : Duration) (hd : 0 < d.ns) :
    d.ns ≤ (t.Sub u).ns ↔ u.ns + d.ns ≤ t.ns := by
  have hhi := d.hi
  rcases Time.Sub_ns t u with ⟨h, e⟩ | ⟨h, e⟩ | ⟨h1, h2, e⟩ <;> rw [e] <;>
    simp only [minDuration, maxDuration] at * <;> omega

@[simp] theorem Time.Add_ns (t : Time) (d : Duration) : (t.Add d).ns = t.ns + d.ns := rfl

@[simp] theorem Time.Add_loc (t : Time) (d : Duration) : (t.Add d).loc = t.loc := rfl

@[simp] theorem Time.Before_iff (t u : Time) : t.Before u = true ↔ t.ns < u.ns := by
  simp [Time.Before]

@[simp] theorem Time.After_iff (t u : Time) : t.After u = true ↔ u.ns < t.ns := by
  simp [Time.After]

@[simp] theorem Time.Equal_iff (t u : Time) : t.Equal u = true ↔ t.ns = u.ns := by
  simp [Time.Equal]

/-! ## The merge loop -/

/-- The four ways the body of the merge loop can go. -/
theorem mergeStep_cases (M : List busyPeriod) (p : busyPeriod) :
    (M = [] ∧ mergeStep M p = [p]) ∨
    (∃ M0 last, M = M0 ++ [last] ∧ last.end_.ns < p.start.ns ∧
        mergeStep M p = M0 ++ [last] ++ [p]) ∨
    (∃ M0 last, M = M0 ++ [last] ∧ p.start.ns ≤ last.end_.ns ∧ last.end_.ns < p.end_.ns ∧
        mergeStep M p = M0 ++ [{ last with end_ := p.end_ }]) ∨
    (∃ M0 last, M = M0 ++ [last] ∧ p.start.ns ≤ last.end_.ns ∧ p.end_.ns ≤ last.end_.ns ∧
        mergeStep M p = M) := by
  rcases List.eq_nil_or_concat M with h | ⟨M0, last, h⟩
  · left; subst h; exact ⟨rfl, rfl⟩
  · right
    rw [List.concat_eq_append] at h
    subst h
    have hl : (M0 ++ [last]).getLast? = some last := by simp
    have hd : (M0 ++ [last]).dropLast = M0 := by simp
    by_cases h1 : last.end_.ns < p.start.ns
    · left
      refine ⟨M0, last, rfl, h1, ?_⟩
      simp [mergeStep, hl, h1]
    · right
      by_cases h2 : last.end_.ns < p.end_.ns
      · left
        refine ⟨M0, last, rfl, not_lt.mp h1, h2, ?_⟩
        simp [mergeStep, hl, h1, h2]
      · right
        refine ⟨M0, last, rfl, not_lt.mp h1, not_lt.mp h2, ?_⟩
        simp [mergeStep, hl, h1, h2]

theorem MergeInv.nil : MergeInv [] [] :=
  ⟨List.Pairwise.nil, List.Pairwise.nil, by simp, by simp, by simp, by simp⟩

theorem MergeInv.step {P M : List busyPeriod} (inv : MergeInv P M) (p : busyPeriod)
    (hp : ∀ b ∈ P, b.start.ns ≤ p.start.ns) : MergeInv (P ++ [p]) (mergeStep M p) := by
  have hstart : ∀ m ∈ M, m.start.ns ≤ p.start.ns := by
    intro m hm
    obtain ⟨b, hb, e⟩ := inv.origin m hm
    have := hp b hb
    omega
  rcases mergeStep_cases M p with ⟨hM, e⟩ | ⟨M0, last, hM, h1, e⟩ | ⟨M0, last, hM, h1, h2, e⟩ |
      ⟨M0, last, hM, h1, h2, e⟩
  · -- the first period
    have hP : ∀ b, b ∉ P := by
      intro b hb
      obtain ⟨m, hm, _⟩ := inv.absorb b hb
      rw [hM] at hm
      exact absurd hm (List.not_mem_nil m)
    rw [e]
    refine ⟨List.pairwise_singleton _ _, List.pairwise_singleton _ _, ?_, ?_, ?_, ?_⟩
    · intro t
      constructor
      · rintro ⟨m, hm, h⟩
        exact ⟨m, by simp at hm; simp [hm], h⟩
      · rintro ⟨b, hb, h⟩
        rcases List.mem_append.mp hb with hb | hb
        · exact absurd hb (hP b)
        · exact ⟨b, hb, h⟩
    · intro m hm
      exact ⟨m, by simp at hm; simp [hm], rfl⟩
    · intro b hb
      rcases List.mem_append.mp hb with hb | hb
      · exact absurd hb (hP b)
      · exact ⟨b, hb, le_refl _, le_refl _⟩
    · intro t e0 _ hav m hm
      exact hav m (List.mem_append_right _ hm)
  · -- a new period is appended
    rw [e, ← hM]
    have hlast : last ∈ M := by rw [hM]; simp
    have hsep : ∀ a ∈ M, a.end_.ns < p.start.ns := by
      intro a ha
      rw [hM] at ha
      rcases List.mem_append.mp ha with ha | ha
      · have hs := inv.sep
        rw [hM, List.pairwise_append] at hs
        have := hs.2.2 a ha last (by simp)
        have := hstart last hlast
        omega
      · simp at ha; rw [ha]; exact h1
    refine ⟨?_, ?_, ?_, ?_, ?_, ?_⟩
    · rw [List.pairwise_append]
      refine ⟨inv.sep, List.pairwise_singleton _ _, ?_⟩
      intro a ha b hb
      simp at hb; rw [hb]; exact hsep a ha
    · rw [List.pairwise_append]
      refine ⟨inv.asc, List.pairwise_singleton _ _, ?_⟩
      intro a ha b hb
      simp at hb; rw [hb]; exact hstart a ha
    · intro t
      constructor
      · rintro ⟨m, hm, h⟩
        rcases List.mem_append.mp hm with hm | hm
        · obtain ⟨b, hb, h'⟩ := (inv.cover t).mp ⟨m, hm, h⟩
          exact ⟨b, List.mem_append_left _ hb, h'⟩
        · exact ⟨m, List.mem_append_right _ hm, h⟩
      · rintro ⟨b, hb, h⟩
        rcases List.mem_append.mp hb with hb | hb
        · obtain ⟨m, hm, h'⟩ := (inv.cover t).mpr ⟨b, hb, h⟩
          exact ⟨m, List.mem_append_left _ hm, h'⟩
        · exact ⟨b, List.mem_append_right _ hb, h⟩
    · intro m hm
      rcases List.mem_append.mp hm with hm | hm
      · obtain ⟨b, hb, h'⟩ := inv.origin m hm
        exact ⟨b, List.mem_append_left _ hb, h'⟩
      · exact ⟨m, List.mem_append_right _ hm, rfl⟩
    · intro b hb
      rcases List.mem_append.mp hb with hb | hb
      · obtain ⟨m, hm, h'⟩ := inv.absorb b hb
        exact ⟨m, List.mem_append_left _ hm, h'⟩
      · exact ⟨b, List.mem_append_right _ hb, le_refl _, le_refl _⟩
    · intro t e0 hte hav m hm
      rcases List.mem_append.mp hm with hm | hm
      · exact inv.avoid t e0 hte (fun b hb => hav b (List.mem_append_left _ hb)) m hm
      · exact hav m (List.mem_append_right _ hm)
  · -- the last period is extended
    rw [e]
    have hlast : last ∈ M := by rw [hM]; simp
    have hls := hstart last hlast
    have hM0 : ∀ a ∈ M0, a ∈ M := by
      intro a ha; rw [hM]; exact List.mem_append_left _ ha
    have hsep := inv.sep
    have hasc := inv.asc
    rw [hM, List.pairwise_append] at hsep hasc
    refine ⟨?_, ?_, ?_, ?_, ?_, ?_⟩
    · rw [List.pairwise_append]
      refine ⟨hsep.1, List.pairwise_singleton _ _, ?_⟩
      intro a ha b hb
      simp at hb; rw [hb]
      exact hsep.2.2 a ha last (by simp)
    · rw [List.pairwise_append]
      refine ⟨hasc.1, List.pairwise_singleton _ _, ?_⟩
      intro a ha b hb
      simp at hb; rw [hb]
      exact hasc.2.2 a ha last (by simp)
    · intro t
      constructor
      · rintro ⟨m, hm, h⟩
        rcases List.mem_append.mp hm with hm | hm
        · obtain ⟨b, hb, h'⟩ := (inv.cover t).mp ⟨m, hM0 m hm, h⟩
          exact ⟨b, List.mem_append_left _ hb, h'⟩
        · simp at hm
          rw [hm] at h
          simp only at h
          by_cases ht : t < last.end_.ns
          · obtain ⟨b, hb, h'⟩ := (inv.cover t).mp ⟨last, hlast, h.1, ht⟩
            exact ⟨b, List.mem_append_left _ hb, h'⟩
          · exact ⟨p, by simp, by omega, h.2⟩
      · rintro ⟨b, hb, h⟩
        rcases List.mem_append.mp hb with hb | hb
        · obtain ⟨m, hm, h'⟩ := (inv.cover t).mpr ⟨b, hb, h⟩
          rw [hM] at hm
          rcases List.mem_append.mp hm with hm | hm
          · exact ⟨m, List.mem_append_left _ hm, h'⟩
          · simp at hm
            rw [hm] at h'
            exact ⟨{ last with end_ := p.end_ }, by simp, h'.1, by simp only; omega⟩
        · simp at hb
          rw [hb] at h
          exact ⟨{ last with end_ := p.end_ }, by simp, by simp only; omega, h.2⟩
    · intro m hm
      rcases List.mem_append.mp hm with hm | hm
      · obtain ⟨b, hb, h'⟩ := inv.origin m (hM0 m hm)
        exact ⟨b, List.mem_append_left _ hb, h'⟩
      · simp at hm
        obtain ⟨b, hb, h'⟩ := inv.origin last hlast
        exact ⟨b, List.mem_append_left _ hb, by rw [hm]; exact h'⟩
    · intro b hb
      rcases List.mem_append.mp hb with hb | hb
      · obtain ⟨m, hm, h'⟩ := inv.absorb b hb
        rw [hM] at hm
        rcases List.mem_append.mp hm with hm | hm
        · exact ⟨m, List.mem_append_left _ hm, h'⟩
        · simp at hm
          rw [hm] at h'
          exact ⟨{ last with end_ := p.end_ }, by simp, h'.1, by simp only; omega⟩
      · simp at hb
        rw [hb]
        exact ⟨{ last with end_ := p.end_ }, by simp, hls, le_refl _⟩
    · intro t e0 hte hav m hm
      rcases List.mem_append.mp hm with hm | hm
      · exact inv.avoid t e0 hte (fun b hb => hav b (List.mem_append_left _ hb)) m (hM0 m hm)
      · simp at hm
        rw [hm]
        have h3 := inv.avoid t e0 hte (fun b hb => hav b (List.mem_append_left _ hb)) last hlast
        have h4 := hav p (by simp)
        simp only
        omega
  · -- the period lies inside the last one
    rw [e]
    have hlast : last ∈ M := by rw [hM]; simp
    have hls := hstart last hlast
    refine ⟨inv.sep, inv.asc, ?_, ?_, ?_, ?_⟩
    · intro t
      constructor
      · rintro ⟨m, hm, h⟩
        obtain ⟨b, hb, h'⟩ := (inv.cover t).mp ⟨m, hm, h⟩
        exact ⟨b, List.mem_append_left _ hb, h'⟩
      · rintro ⟨b, hb, h⟩
        rcases List.mem_append.mp hb with hb | hb
        · exact (inv.cover t).mpr ⟨b, hb, h⟩
        · simp at hb
          rw [hb] at h
          exact ⟨last, hlast, by omega, by omega⟩
    · intro m hm
      obtain ⟨b, hb, h'⟩ := inv.origin m hm
      exact ⟨b, List.mem_append_left _ hb, h'⟩
    · intro b hb
      rcases List.mem_append.mp hb with hb | hb
      · exact inv.absorb b hb
      · simp at hb
        rw [hb]
        exact ⟨last, hlast, hls, h2⟩
    · intro t e0 hte hav m hm
      exact inv.avoid t e0 hte (fun b hb => hav b (List.mem_append_left _ hb)) m hm

/-- The invariant holds of the whole fold over a list sorted by start. -/
theorem MergeInv.foldl : ∀ (R P M : List busyPeriod), MergeInv P M →
    (P ++ R).Pairwise (fun a b => a.start.ns ≤ b.start.ns) →
    MergeInv (P ++ R) (R.foldl mergeStep M)
  | [], P, M, inv, _ => by simpa using inv
  | p :: R, P, M, inv, hs => by
    have hp : ∀ b ∈ P, b.start.ns ≤ p.start.ns := by
      intro b hb
      rw [List.pairwise_append] at hs
      exact hs.2.2 b hb p (by simp)
    have h := MergeInv.foldl R (P ++ [p]) (mergeStep M p) (inv.step p hp) (by simpa using hs)
    simpa using h

/-- What the sort establishes, in terms of instants. -/
theorem sorted_run (S : SortSlice busyPeriod busyLess) (l : List busyPeriod) :
    (S.run l).Pairwise (fun a b => a.start.ns ≤ b.start.ns) := by
  refine List.Pairwise.imp ?_ (S.sorted l)
  intro a b h
  simpa [busyLess, Time.Before] using h

/-- The merged list and the sorted input it was folded from. -/
theorem mergePeriods_inv (S : SortSlice busyPeriod busyLess) (l : List busyPeriod) :
    MergeInv (S.run l) (mergePeriods S l) := by
  have h := MergeInv.foldl (S.run l) [] [] MergeInv.nil (by simpa using sorted_run S l)
  simpa [mergePeriods] using h

/-- In a list with strictly increasing starts, a start identifies its period. -/
theorem eq_of_start_eq : ∀ {l : List busyPeriod},
    l.Pairwise (fun a b => a.start.ns < b.start.ns) →
    ∀ {a b : busyPeriod}, a ∈ l → b ∈ l → a.start.ns = b.start.ns → a = b
  | [], _, _, _, ha, _, _ => absurd ha (List.not_mem_nil _)
  | x :: t, h, a, b, ha, hb, e => by
    rw [List.pairwise_cons] at h
    rcases List.mem_cons.mp ha with ha | ha <;> rcases List.mem_cons.mp hb with hb | hb
    · rw [ha, hb]
    · have := h.1 b hb
      rw [ha] at e
      omega
    · have := h.1 a ha
      rw [hb] at e
      omega
    · exact eq_of_start_eq h.2 ha hb e

/-- The sort leaves a list with strictly increasing starts as it is. -/
theorem run_eq_self (S : SortSlice busyPeriod busyLess) (l : List busyPeriod)
    (h : l.Pairwise (fun a b => a.start.ns < b.start.ns)) : S.run l = l := by
  refine List.Perm.eq_of_sorted ?_ (sorted_run S l) (h.imp (fun hab => le_of_lt hab)) (S.perm l)
  intro a b ha hb hab _
  have ha' : a ∈ l := (S.perm l).mem_iff.mp ha
  have hba : b.start.ns ≤ a.start.ns := by assumption
  exact eq_of_start_eq h ha' hb (le_antisymm hab hba)

/-- The fold appends every period when each ends strictly before the next
starts. -/
theorem foldl_mergeStep_append : ∀ (L M : List busyPeriod),
    (M ++ L).Chain' (fun a b => a.end_.ns < b.start.ns) → L.foldl mergeStep M = M ++ L
  | [], M, _ => by simp
  | p :: R, M, h => by
    have hstep : mergeStep M p = M ++ [p] := by
      rcases mergeStep_cases M p with ⟨hM, e⟩ | ⟨M0, last, hM, _, e⟩ | ⟨M0, last, hM, h1, _, _⟩ |
          ⟨M0, last, hM, h1, _, _⟩
      · rw [e, hM]; rfl
      · rw [e, hM]
      · rw [hM, List.chain'_append] at h
        have := h.2.2 last (by simp) p (by simp)
        omega
      · rw [hM, List.chain'_append] at h
        have := h.2.2 last (by simp) p (by simp)
        omega
    have h' : (M ++ [p] ++ R).Chain' (fun a b => a.end_.ns < b.start.ns) := by simpa using h
    have := foldl_mergeStep_append R (M ++ [p]) h'
    simpa [hstep] using this

/-- C1. Merge correctness: for every list of busy periods, whatever order the
sort leaves equal starts in, the merged list is sorted by start, each of its
periods ends strictly before the next one (indeed before every later one) starts,
and it covers the same instants as the input, each period read as the half-open
range from its start to its end. The overlapping periods 09:00-10:30 and
10:00-11:00 merge into the single period 09:00-11:00. -/
theorem merge_correct (S : SortSlice busyPeriod busyLess) (l : List busyPeriod) :
    (mergePeriods S l).Pairwise (fun a b => a.start.ns ≤ b.start.ns) ∧
    (mergePeriods S l).Chain' (fun a b => a.end_.ns < b.start.ns) ∧
    (mergePeriods S l).Pairwise (fun a b => a.end_.ns < b.start.ns) ∧
    (∀ t : Int, (∃ m ∈ mergePeriods S l, m.start.ns ≤ t ∧ t < m.end_.ns) ↔
      (∃ b ∈ l, b.start.ns ≤ t ∧ t < b.end_.ns)) ∧
    mergePeriods S [⟨clock 9 0, clock 10 30⟩, ⟨clock 10 0, clock 11 0⟩] =
      [⟨clock 9 0, clock 11 0⟩] := by
  have inv := mergePeriods_inv S l
  refine ⟨inv.asc, inv.sep.chain', inv.sep, ?_, ?_⟩
  · intro t
    rw [inv.cover t]
    constructor
    · rintro ⟨b, hb, h⟩
      exact ⟨b, (S.perm l).mem_iff.mp hb, h⟩
    · rintro ⟨b, hb, h⟩
      exact ⟨b, (S.perm l).mem_iff.mpr hb, h⟩
  · have hrun : S.run [⟨clock 9 0, clock 10 30⟩, ⟨clock 10 0, clock 11 0⟩] =
        [⟨clock 9 0, clock 10 30⟩, ⟨clock 10 0, clock 11 0⟩] := by
      apply run_eq_self
      simp [clock, Minute, Second]
    rw [mergePeriods, hrun]
    rfl

/-- C9, as amended. Merge idempotence: a list of busy periods whose starts
increase strictly and in which every period ends strictly before the next one
starts is returned unchanged by the merge step. -/
theorem merge_idempotent (S : SortSlice busyPeriod busyLess) (l : List busyPeriod)
    (hasc : l.Pairwise (fun a b => a.start.ns < b.start.ns))
    (hsep : l.Chain' (fun a b => a.end_.ns < b.start.ns)) :
    mergePeriods S l = l := by
  rw [mergePeriods, run_eq_self S l hasc]
  simpa using foldl_mergeStep_append l [] (by simpa using hsep)

/-- The amended C9 at the periods 09:00-10:00 and 10:30-11:00. -/
theorem merge_idempotent_witness :
    mergePeriods insertionSorter [⟨clock 9 0, clock 10 0⟩, ⟨clock 10 30, clock 11 0⟩] =
      [⟨clock 9 0, clock 10 0⟩, ⟨clock 10 30, clock 11 0⟩] :=
  merge_idempotent insertionSorter [⟨clock 9 0, clock 10 0⟩, ⟨clock 10 30, clock 11 0⟩]
    (by simp [clock, Minute, Second]) (by simp [clock, Minute, Second])

/-- C9 as stated fails: the periods 09:00-10:00 and 10:00-11:00 are sorted by start
and disjoint as half-open ranges, the second starting exactly where the first one
stops, and the merge step fuses them into the single period 09:00-11:00. -/
theorem merge_idempotent_counterexample :
    [(⟨clock 9 0, clock 10 0⟩ : busyPeriod), ⟨clock 10 0, clock 11 0⟩].Pairwise
      (fun a b => a.start.ns ≤ b.start.ns) ∧
    [(⟨clock 9 0, clock 10 0⟩ : busyPeriod), ⟨clock 10 0, clock 11 0⟩].Pairwise
      (fun a b => ∀ t : Int, ¬ ((a.start.ns ≤ t ∧ t < a.end_.ns) ∧
        (b.start.ns ≤ t ∧ t < b.end_.ns))) ∧
    (mergePeriods insertionSorter [⟨clock 9 0, clock 10 0⟩, ⟨clock 10 0, clock 11 0⟩]).map
      busyPeriod.span = [((clock 9 0).ns, (clock 11 0).ns)] ∧
    mergePeriods insertionSorter [⟨clock 9 0, clock 10 0⟩, ⟨clock 10 0, clock 11 0⟩] ≠
      [⟨clock 9 0, clock 10 0⟩, ⟨clock 10 0, clock 11 0⟩] := by
  refine ⟨by simp [clock, Minute, Second], ?_, by decide, ?_⟩
  · simp only [List.pairwise_cons, List.mem_singleton, forall_eq, List.not_mem_nil,
      IsEmpty.forall_iff, implies_true, List.Pairwise.nil, and_true, clock]
    intro t
    simp only [Minute, Second]
    omega
  · intro h
    have := congrArg List.length h
    revert this
    decide

/-! ## The trailing loop -/

/-- The instants of the slots of `packFrom`. -/
theorem packFrom_span (d : Duration) : ∀ (n : Nat) (cur : Time),
    (packFrom d n cur).map TimeSlot.span =
      (List.range n).map (fun i : Nat => (cur.ns + i * d.ns, cur.ns + (i + 1) * d.ns))
  | 0, _ => rfl
  | n + 1, cur => by
    rw [packFrom, List.map_cons, packFrom_span d n (cur.Add d), List.range_succ_eq_map,
      List.map_cons, List.map_map]
    congr 1
    · simp [TimeSlot.span]
    · apply List.map_congr_left
      intro i _
      simp only [Function.comp, Time.Add_ns, Nat.succ_eq_add_one, Nat.cast_add, Nat.cast_one]
      refine Prod.ext ?_ ?_ <;> simp only <;> ring

theorem packFrom_length (d : Duration) : ∀ (n : Nat) (cur : Time),
    (packFrom d n cur).length = n
  | 0, _ => rfl
  | n + 1, cur => by rw [packFrom, List.length_cons, packFrom_length d n]

/-- The slots of `packFrom`, one by one. -/
theorem packFrom_mem (d : Duration) (n : Nat) (cur : Time) (s : TimeSlot)
    (hs : s ∈ packFrom d n cur) :
    ∃ i : Nat, i < n ∧ s.Start.ns = cur.ns + i * d.ns ∧ s.End.ns = cur.ns + (i + 1) * d.ns := by
  have h : s.span ∈ (packFrom d n cur).map TimeSlot.span := List.mem_map_of_mem _ hs
  rw [packFrom_span, List.mem_map] at h
  obtain ⟨i, hi, e⟩ := h
  refine ⟨i, List.mem_range.mp hi, ?_, ?_⟩
  · exact (congrArg Prod.fst e).symm
  · exact (congrArg Prod.snd e).symm

/-- The trailing loop in closed form: when `k` slots fit between `cur` and
`windowEnd`, the loop returns exactly when its budget is at least `k`, and then it
has appended the `k` slots of `packFrom`. -/
theorem trailingLoop_eq (we : Time) (d : Duration) (hd : 0 < d.ns) :
    ∀ (k : Nat) (cur : Time) (slots : List TimeSlot) (fuel : Nat),
      (k = 0 ∨ (k : Int) * d.ns ≤ we.ns - cur.ns) → we.ns - cur.ns < ((k : Int) + 1) * d.ns →
      trailingLoop we d fuel cur slots =
        if k ≤ fuel then some (slots ++ packFrom d k cur) else none
  | 0, cur, slots, fuel, _, h2 => by
    have hc : ¬ d.ns ≤ (we.Sub cur).ns := by
      rw [Time.le_Sub_iff we cur d hd]
      simp only [Nat.cast_zero, zero_add, one_mul] at h2
      omega
    unfold trailingLoop
    simp [hc, packFrom]
  | k + 1, cur, slots, fuel, h1, h2 => by
    have hk : (0 : Int) ≤ (k : Int) * d.ns := mul_nonneg (Int.natCast_nonneg k) (le_of_lt hd)
    have h1' : ((k : Int) + 1) * d.ns ≤ we.ns - cur.ns := by
      rcases h1 with h1 | h1
      · exact absurd h1 (Nat.succ_ne_zero k)
      · simpa using h1
    have e1 : ((k : Int) + 1) * d.ns = (k : Int) * d.ns + d.ns := by ring
    have e2 : ((k : Int) + 1 + 1) * d.ns = (k : Int) * d.ns + d.ns + d.ns := by ring
    have hc : d.ns ≤ (we.Sub cur).ns := by
      rw [Time.le_Sub_iff we cur d hd]
      omega
    have ha : ¬ we.ns < cur.ns + d.ns := by omega
    unfold trailingLoop
    cases fuel with
    | zero => simp [hc, ha]
    | succ fuel =>
      have ih := trailingLoop_eq we d hd k (cur.Add d)
        (slots ++ [{ Start := cur, End := cur.Add d, Score := 0 }]) fuel
        (by right; simp only [Time.Add_ns]; omega)
        (by
          simp only [Time.Add_ns]
          have h2' : we.ns - cur.ns < ((k : Int) + 1 + 1) * d.ns := by
            simpa using h2
          omega)
      simp [hc, ha, ih, packFrom]

/-- The count of `trailingCount` is the number of slots that fit. -/
theorem trailingCount_spec (we cur : Time) (d : Duration) (hd : 0 < d.ns) :
    (trailingCount we cur d = 0 ∨ (trailingCount we cur d : Int) * d.ns ≤ we.ns - cur.ns) ∧
    we.ns - cur.ns < ((trailingCount we cur d : Int) + 1) * d.ns := by
  unfold trailingCount
  by_cases hx : we.ns - cur.ns < 0
  · have hneg : (we.ns - cur.ns) / d.ns < 0 := Int.ediv_neg' hx hd
    have h0 : ((we.ns - cur.ns) / d.ns).toNat = 0 := by omega
    rw [h0]
    refine ⟨Or.inl rfl, ?_⟩
    simp only [Nat.cast_zero, zero_add, one_mul]
    omega
  · have hnn : 0 ≤ (we.ns - cur.ns) / d.ns := Int.ediv_nonneg (by omega) (le_of_lt hd)
    have hc : (((we.ns - cur.ns) / d.ns).toNat : Int) = (we.ns - cur.ns) / d.ns :=
      Int.toNat_of_nonneg hnn
    rw [hc]
    exact ⟨Or.inr (Int.ediv_mul_le _ (ne_of_gt hd)), Int.lt_ediv_add_one_mul_self _ hd⟩

/-- The trailing loop returns once its budget reaches `trailingCount`. -/
theorem trailingLoop_count (we : Time) (d : Duration) (hd : 0 < d.ns) (cur : Time)
    (slots : List TimeSlot) (fuel : Nat) :
    trailingLoop we d fuel cur slots =
      if trailingCount we cur d ≤ fuel then
        some (slots ++ packFrom d (trailingCount we cur d) cur)
      else none :=
  trailingLoop_eq we d hd _ cur slots fuel (trailingCount_spec we cur d hd).1
    (trailingCount_spec we cur d hd).2

/-- The whole function in terms of the gap loop and `packFrom`. -/
theorem findAvailableSlots_eq (S : SortSlice busyPeriod busyLess) (fuel : Nat) (ws we : Time)
    (d : Duration) (hd : 0 < d.ns) (events : List Event) :
    findAvailableSlots S fuel ws we d events =
      if trailingCount we (sweep S ws d events).1 d ≤ fuel then
        some ((sweep S ws d events).2 ++
          packFrom d (trailingCount we (sweep S ws d events).1 d) (sweep S ws d events).1)
      else none := by
  unfold findAvailableSlots
  exact trailingLoop_count we d hd _ _ fuel

/-! ## The gap loop -/

/-- The cursor after one run of the body of the gap loop. -/
theorem gapStep_fst (d : Duration) (cur : Time) (sl : List TimeSlot) (m : busyPeriod) :
    (gapStep d (cur, sl) m).1 = if cur.ns < m.end_.ns then m.end_ else cur := by
  simp [gapStep]

/-- The slots after one run of the body of the gap loop: the slot at the cursor is
appended exactly when it ends no later than the busy period starts. -/
theorem gapStep_snd (d : Duration) (hd : 0 < d.ns) (cur : Time) (sl : List TimeSlot)
    (m : busyPeriod) :
    (gapStep d (cur, sl) m).2 =
      if cur.ns + d.ns ≤ m.start.ns then sl ++ [{ Start := cur, End := cur.Add d, Score := 0 }]
      else sl := by
  simp only [gapStep, Time.After_iff, Time.le_Sub_iff m.start cur d hd, Bool.or_eq_true,
    Time.Before_iff, Time.Equal_iff, Time.Add_ns]
  by_cases h : cur.ns + d.ns ≤ m.start.ns
  · have h1 : cur.ns < m.start.ns := by omega
    have h2 : cur.ns + d.ns < m.start.ns ∨ cur.ns + d.ns = m.start.ns := by omega
    simp [h, h1, h2]
  · simp [h]

/-- The sort leaves the empty list empty. -/
theorem run_nil (S : SortSlice busyPeriod busyLess) : S.run [] = [] :=
  (S.perm []).eq_nil

/-- The sort leaves a list of one element as it is. -/
theorem run_singleton (S : SortSlice busyPeriod busyLess) (b : busyPeriod) : S.run [b] = [b] :=
  List.perm_singleton.mp (S.perm [b])

theorem sweep_nil (S : SortSlice busyPeriod busyLess) (ws : Time) (d : Duration) :
    sweep S ws d [] = (ws, []) := by
  simp [sweep, busyPeriodsOf, mergePeriods, run_nil]

theorem sweep_singleton (S : SortSlice busyPeriod busyLess) (ws : Time) (d : Duration)
    (b : Event) :
    sweep S ws d [b] = gapStep d (ws, []) ⟨b.StartTime, b.EndTime⟩ := by
  simp [sweep, busyPeriodsOf, mergePeriods, run_singleton, mergeStep]

/-- The merge loop never lengthens `mergedPeriods` by more than one period. -/
theorem mergeStep_length (M : List busyPeriod) (p : busyPeriod) :
    (mergeStep M p).length ≤ M.length + 1 := by
  rcases mergeStep_cases M p with ⟨hM, e⟩ | ⟨M0, last, hM, _, e⟩ | ⟨M0, last, hM, _, _, e⟩ |
      ⟨M0, last, hM, _, _, e⟩ <;> rw [e, hM] <;> simp

theorem foldl_mergeStep_length : ∀ (R M : List busyPeriod),
    (R.foldl mergeStep M).length ≤ M.length + R.length
  | [], M => by simp
  | p :: R, M => by
    have h1 := foldl_mergeStep_length R (mergeStep M p)
    have h2 := mergeStep_length M p
    simp only [List.foldl_cons, List.length_cons]
    omega

theorem foldl_gapStep_length (d : Duration) : ∀ (R : List busyPeriod) (st : Time × List TimeSlot),
    (R.foldl (gapStep d) st).2.length ≤ st.2.length + R.length
  | [], st => by simp
  | m :: R, st => by
    have h1 := foldl_gapStep_length d R (gapStep d st m)
    have h2 : (gapStep d st m).2.length ≤ st.2.length + 1 := by
      simp only [gapStep]
      split_ifs <;> simp
    simp only [List.foldl_cons, List.length_cons]
    omega

/-- The gap loop emits at most one slot per event. -/
theorem sweep_length (S : SortSlice busyPeriod busyLess) (ws : Time) (d : Duration)
    (events : List Event) : (sweep S ws d events).2.length ≤ events.length := by
  have h1 := foldl_gapStep_length d (mergePeriods S (busyPeriodsOf events)) (ws, [])
  have h2 := foldl_mergeStep_length (S.run (busyPeriodsOf events)) []
  have h3 := (S.perm (busyPeriodsOf events)).length_eq
  have h4 : (busyPeriodsOf events).length = events.length := by simp [busyPeriodsOf]
  simp only [sweep, mergePeriods, List.length_nil] at *
  omega

/-! ## Packing, first fit and totality -/

/-- C7. Trailing packing with an empty calendar: for a duration `d > 0` and no
events, `findAvailableSlots` returns, as soon as its loop budget allows the `n`
runs of the trailing loop, exactly the slots from `windowStart + i*d` to
`windowStart + (i+1)*d` for `i = 0, ..., n-1`, in that order, where `n` is the
whole part of `(windowEnd - windowStart) / d`, and `0` when the window ends before
it starts. -/
theorem empty_calendar_packing (S : SortSlice busyPeriod busyLess) (ws we : Time)
    (d : Duration) (hd : 0 < d.ns) (fuel : Nat)
    (hf : ((we.ns - ws.ns) / d.ns).toNat ≤ fuel) :
    (findAvailableSlots S fuel ws we d []).map (List.map TimeSlot.span) =
      some ((List.range ((we.ns - ws.ns) / d.ns).toNat).map
        (fun i : Nat => (ws.ns + i * d.ns, ws.ns + (i + 1) * d.ns))) := by
  have hf' : trailingCount we ws d ≤ fuel := hf
  rw [findAvailableSlots_eq S fuel ws we d hd, sweep_nil, if_pos hf']
  simp only [Option.map_some', List.nil_append, packFrom_span]
  rfl

/-- C7 at the window 09:00-18:00 with 60-minute slots: the nine hourly slots that
start at 09:00, 10:00, ..., 17:00. -/
theorem empty_calendar_packing_witness :
    0 < (minutes 60).ns ∧
    (findAvailableSlots insertionSorter 9 (clock 9 0) (clock 18 0) (minutes 60) []).map
        (List.map TimeSlot.span) =
      some [((clock 9 0).ns, (clock 10 0).ns), ((clock 10 0).ns, (clock 11 0).ns),
        ((clock 11 0).ns, (clock 12 0).ns), ((clock 12 0).ns, (clock 13 0).ns),
        ((clock 13 0).ns, (clock 14 0).ns), ((clock 14 0).ns, (clock 15 0).ns),
        ((clock 15 0).ns, (clock 16 0).ns), ((clock 16 0).ns, (clock 17 0).ns),
        ((clock 17 0).ns, (clock 18 0).ns)] :=
  ⟨by decide,
    (empty_calendar_packing insertionSorter (clock 9 0) (clock 18 0) (minutes 60) (by decide) 9
      (by decide)).trans (by decide)⟩

/-- C8. First fit before a busy interval, packing after it: for a duration
`d > 0` and a single event `b`, `findAvailableSlots` returns, as soon as its loop
budget allows the `n` runs of the trailing loop, the one slot from `windowStart`
to `windowStart + d` if `b.start - windowStart >= d` and no slot for that gap
otherwise, followed by the slots from `c + i*d` to `c + (i+1)*d` for
`i = 0, ..., n-1`, where `c` is the later of `windowStart` and `b.end` and `n` is
the whole part of `(windowEnd - c) / d`, and `0` when the window ends before `c`.
The event need not even end after it starts. -/
theorem single_busy_first_fit (S : SortSlice busyPeriod busyLess) (ws we : Time)
    (d : Duration) (hd : 0 < d.ns) (b : Event) (fuel : Nat)
    (hf : ((we.ns - max ws.ns b.EndTime.ns) / d.ns).toNat ≤ fuel) :
    (findAvailableSlots S fuel ws we d [b]).map (List.map TimeSlot.span) =
      some ((if d.ns ≤ b.StartTime.ns - ws.ns then [(ws.ns, ws.ns + d.ns)] else []) ++
        (List.range ((we.ns - max ws.ns b.EndTime.ns) / d.ns).toNat).map
          (fun i : Nat => (max ws.ns b.EndTime.ns + i * d.ns,
            max ws.ns b.EndTime.ns + (i + 1) * d.ns))) := by
  have hcur : (sweep S ws d [b]).1.ns = max ws.ns b.EndTime.ns := by
    rw [sweep_singleton, gapStep_fst]
    split_ifs with h
    · simp only; rw [max_eq_right (le_of_lt h)]
    · simp only at h; rw [max_eq_left (not_lt.mp h)]
  have hsl : (sweep S ws d [b]).2.map TimeSlot.span =
      if d.ns ≤ b.StartTime.ns - ws.ns then [(ws.ns, ws.ns + d.ns)] else [] := by
    rw [sweep_singleton, gapStep_snd d hd]
    by_cases h : d.ns ≤ b.StartTime.ns - ws.ns
    · have h' : ws.ns + d.ns ≤ b.StartTime.ns := by omega
      simp [h, h', TimeSlot.span]
    · have h' : ¬ ws.ns + d.ns ≤ b.StartTime.ns := by omega
      simp [h, h']
  have hcount : trailingCount we (sweep S ws d [b]).1 d =
      ((we.ns - max ws.ns b.EndTime.ns) / d.ns).toNat := by
    rw [trailingCount, hcur]
  rw [findAvailableSlots_eq S fuel ws we d hd, hcount, if_pos hf]
  simp only [Option.map_some', List.map_append, hsl, packFrom_span, hcur]

/-- C8 at the window 09:00-12:00 with the event 10:00-11:00 and 60-minute slots:
exactly 09:00-10:00 and 11:00-12:00. -/
theorem single_busy_first_fit_witness :
    0 < (minutes 60).ns ∧
    (findAvailableSlots insertionSorter 1 (clock 9 0) (clock 12 0) (minutes 60)
        [⟨clock 10 0, clock 11 0⟩]).map (List.map TimeSlot.span) =
      some [((clock 9 0).ns, (clock 10 0).ns), ((clock 11 0).ns, (clock 12 0).ns)] :=
  ⟨by decide,
    (single_busy_first_fit insertionSorter (clock 9 0) (clock 12 0) (minutes 60) (by decide)
      ⟨clock 10 0, clock 11 0⟩ 1 (by decide)).trans (by decide)⟩

/-- C10. Totality: for a duration `d > 0` and any list of events, the gap loop
leaves a cursor and at most one slot per event, and `findAvailableSlots` returns
a list as soon as the trailing loop is allowed `n` runs of its body, `n` being the
whole part of `(windowEnd - cursor) / d`; it then has appended `n` slots. When
`windowEnd - cursor < d` it returns without running the body at all. -/
theorem findAvailableSlots_total (S : SortSlice busyPeriod busyLess) (ws we : Time)
    (d : Duration) (hd : 0 < d.ns) (events : List Event) :
    (∀ fuel : Nat, ((we.ns - (sweep S ws d events).1.ns) / d.ns).toNat ≤ fuel →
      ∃ slots, findAvailableSlots S fuel ws we d events = some slots ∧
        slots.length =
          (sweep S ws d events).2.length +
            ((we.ns - (sweep S ws d events).1.ns) / d.ns).toNat) ∧
    (sweep S ws d events).2.length ≤ events.length ∧
    (we.ns - (sweep S ws d events).1.ns < d.ns →
      findAvailableSlots S 0 ws we d events = some (sweep S ws d events).2) := by
  refine ⟨?_, sweep_length S ws d events, ?_⟩
  · intro fuel hf
    have hf' : trailingCount we (sweep S ws d events).1 d ≤ fuel := hf
    refine ⟨(sweep S ws d events).2 ++
      packFrom d (trailingCount we (sweep S ws d events).1 d) (sweep S ws d events).1, ?_, ?_⟩
    · rw [findAvailableSlots_eq S fuel ws we d hd, if_pos hf']
    · rw [List.length_append, packFrom_length]
      rfl
  · intro hlt
    have h := trailingLoop_eq we d hd 0 (sweep S ws d events).1 (sweep S ws d events).2 0
      (Or.inl rfl) (by simpa using hlt)
    simpa [findAvailableSlots, packFrom] using h

/-- C10 at the window 09:00-12:00 with the event 10:00-11:00 and 60-minute
slots. -/
theorem findAvailableSlots_total_witness :
    0 < (minutes 60).ns ∧
    (∀ fuel : Nat,
      ((( clock 12 0).ns - (sweep insertionSorter (clock 9 0) (minutes 60)
        [⟨clock 10 0, clock 11 0⟩]).1.ns) / (minutes 60).ns).toNat ≤ fuel →
      ∃ slots, findAvailableSlots insertionSorter fuel (clock 9 0) (clock 12 0) (minutes 60)
        [⟨clock 10 0, clock 11 0⟩] = some slots ∧
        slots.length =
          (sweep insertionSorter (clock 9 0) (minutes 60) [⟨clock 10 0, clock 11 0⟩]).2.length +
            (((clock 12 0).ns - (sweep insertionSorter (clock 9 0) (minutes 60)
              [⟨clock 10 0, clock 11 0⟩]).1.ns) / (minutes 60).ns).toNat) :=
  ⟨by decide,
    (findAvailableSlots_total insertionSorter (clock 9 0) (clock 12 0) (minutes 60) (by decide)
      [⟨clock 10 0, clock 11 0⟩]).1⟩

/-! ## What the gap loop maintains -/

/-- Over merged periods sorted by start, the gap loop moves the cursor forward
and past the end of every period, and every slot it adds starts at or after the
initial cursor, has the requested length, ends no later than some period starts
and is disjoint from every period. -/
theorem foldl_gapStep_inv (d : Duration) (hd : 0 < d.ns) :
    ∀ (R : List busyPeriod) (cur : Time) (sl : List TimeSlot),
      R.Pairwise (fun a b => a.start.ns ≤ b.start.ns) →
      cur.ns ≤ (R.foldl (gapStep d) (cur, sl)).1.ns ∧
      (∀ m ∈ R, m.end_.ns ≤ (R.foldl (gapStep d) (cur, sl)).1.ns) ∧
      ∀ s ∈ (R.foldl (gapStep d) (cur, sl)).2, s ∈ sl ∨
        (cur.ns ≤ s.Start.ns ∧ s.End.ns = s.Start.ns + d.ns ∧
          (∃ m ∈ R, s.End.ns ≤ m.start.ns) ∧
          ∀ m ∈ R, s.End.ns ≤ m.start.ns ∨ m.end_.ns ≤ s.Start.ns)
  | [], cur, sl, _ => by simp
  | m :: R, cur, sl, hs => by
    rw [List.pairwise_cons] at hs
    have ih := foldl_gapStep_inv d hd R (gapStep d (cur, sl) m).1 (gapStep d (cur, sl) m).2 hs.2
    simp only [Prod.mk.eta] at ih
    obtain ⟨ih1, ih2, ih3⟩ := ih
    have hc1 : cur.ns ≤ (gapStep d (cur, sl) m).1.ns := by
      rw [gapStep_fst]; split_ifs with h <;> omega
    have hc2 : m.end_.ns ≤ (gapStep d (cur, sl) m).1.ns := by
      rw [gapStep_fst]; split_ifs with h <;> omega
    simp only [List.foldl_cons]
    refine ⟨le_trans hc1 ih1, ?_, ?_⟩
    · intro m' hm'
      rcases List.mem_cons.mp hm' with e | hm'
      · rw [e]; exact le_trans hc2 ih1
      · exact ih2 m' hm'
    · intro s hs'
      rcases ih3 s hs' with h | ⟨h1, h2, ⟨m', hm', h3⟩, h4⟩
      · rw [gapStep_snd d hd] at h
        split_ifs at h with hfit
        · rcases List.mem_append.mp h with h | h
          · exact Or.inl h
          · right
            simp only [List.mem_singleton] at h
            subst h
            refine ⟨le_refl _, rfl, ⟨m, List.mem_cons_self _ _, hfit⟩, ?_⟩
            intro m' hm'
            rcases List.mem_cons.mp hm' with e | hm'
            · rw [e]; exact Or.inl hfit
            · left
              have := hs.1 m' hm'
              simp only [Time.Add_ns] at hfit ⊢
              omega
        · exact Or.inl h
      · right
        refine ⟨le_trans hc1 h1, h2, ⟨m', List.mem_cons_of_mem _ hm', h3⟩, ?_⟩
        intro m'' hm''
        rcases List.mem_cons.mp hm'' with e | hm''
        · rw [e]; right; omega
        · exact h4 m'' hm''

/-- If a placement `[t, t + d]` at or after the cursor avoids every period, the gap
loop either emits a slot or leaves the cursor at or before `t`. -/
theorem foldl_gapStep_feasible (d : Duration) (hd : 0 < d.ns) (t : Int) :
    ∀ (R : List busyPeriod) (cur : Time) (sl : List TimeSlot),
      (sl ≠ [] ∨ cur.ns ≤ t) →
      (∀ m ∈ R, t + d.ns ≤ m.start.ns ∨ m.end_.ns ≤ t) →
      (R.foldl (gapStep d) (cur, sl)).2 ≠ [] ∨ (R.foldl (gapStep d) (cur, sl)).1.ns ≤ t
  | [], cur, sl, h, _ => by simpa using h
  | m :: R, cur, sl, h, hav => by
    have ih := foldl_gapStep_feasible d hd t R (gapStep d (cur, sl) m).1
      (gapStep d (cur, sl) m).2
    simp only [Prod.mk.eta] at ih
    simp only [List.foldl_cons]
    apply ih
    · rw [gapStep_snd d hd, gapStep_fst]
      rcases h with h | h
      · left
        split_ifs <;> simp [h]
      · rcases hav m (List.mem_cons_self _ _) with h1 | h1
        · left
          have : cur.ns + d.ns ≤ m.start.ns := by omega
          simp [this]
        · right
          split_ifs <;> omega
    · intro m' hm'
      exact hav m' (List.mem_cons_of_mem _ hm')

/-- Every slot of the result: where it lies, and that it avoids every merged
period. A slot that ends after the window does is one the gap loop placed
before a period that starts after the window ends. -/
theorem slot_facts (S : SortSlice busyPeriod busyLess) (ws we : Time) (d : Duration)
    (hd : 0 < d.ns) (events : List Event) (s : TimeSlot)
    (hs : s ∈ (sweep S ws d events).2 ++
      packFrom d (trailingCount we (sweep S ws d events).1 d) (sweep S ws d events).1) :
    ws.ns ≤ s.Start.ns ∧ s.End.ns = s.Start.ns + d.ns ∧
    (s.End.ns ≤ we.ns ∨ ∃ m ∈ mergePeriods S (busyPeriodsOf events), s.End.ns ≤ m.start.ns) ∧
    ∀ m ∈ mergePeriods S (busyPeriodsOf events),
      s.End.ns ≤ m.start.ns ∨ m.end_.ns ≤ s.Start.ns := by
  have inv := mergePeriods_inv S (busyPeriodsOf events)
  obtain ⟨g1, g2, g3⟩ := foldl_gapStep_inv d hd (mergePeriods S (busyPeriodsOf events)) ws []
    inv.asc
  rcases List.mem_append.mp hs with hs | hs
  · rcases g3 s hs with h | ⟨h1, h2, h3, h4⟩
    · exact absurd h (List.not_mem_nil s)
    · exact ⟨h1, h2, Or.inr h3, h4⟩
  · obtain ⟨i, hi, e1, e2⟩ := packFrom_mem d _ _ s hs
    have hspec := trailingCount_spec we (sweep S ws d events).1 d hd
    have hcur : ws.ns ≤ (sweep S ws d events).1.ns := g1
    have hid : (0 : Int) ≤ (i : Int) * d.ns := mul_nonneg (Int.natCast_nonneg i) (le_of_lt hd)
    have hle : ((i : Int) + 1) * d.ns ≤
        (trailingCount we (sweep S ws d events).1 d : Int) * d.ns := by
      apply mul_le_mul_of_nonneg_right _ (le_of_lt hd)
      exact_mod_cast hi
    have hn : (trailingCount we (sweep S ws d events).1 d : Int) * d.ns ≤
        we.ns - (sweep S ws d events).1.ns := by
      rcases hspec.1 with h0 | h0
      · rw [h0] at hi; exact absurd hi (Nat.not_lt_zero i)
      · exact h0
    refine ⟨by omega, ?_, Or.inl (by omega), ?_⟩
    · rw [e1, e2]; ring
    · intro m hm
      right
      have : m.end_.ns ≤ (sweep S ws d events).1.ns := g2 m hm
      omega

/-! ## Non-overlap, containment and feasibility -/

theorem mem_run_of_event (S : SortSlice busyPeriod busyLess) (events : List Event) (b : Event)
    (hb : b ∈ events) :
    (⟨b.StartTime, b.EndTime⟩ : busyPeriod) ∈ S.run (busyPeriodsOf events) := by
  rw [(S.perm _).mem_iff, busyPeriodsOf]
  exact List.mem_map.mpr ⟨b, hb, rfl⟩

theorem event_of_mem_run (S : SortSlice busyPeriod busyLess) (events : List Event)
    (p : busyPeriod) (hp : p ∈ S.run (busyPeriodsOf events)) :
    ∃ b ∈ events, p = ⟨b.StartTime, b.EndTime⟩ := by
  rw [(S.perm _).mem_iff, busyPeriodsOf, List.mem_map] at hp
  obtain ⟨b, hb, e⟩ := hp
  exact ⟨b, hb, e.symm⟩

/-- A result of `findAvailableSlots` is the slots of the gap loop followed by
those of the trailing loop. -/
theorem findAvailableSlots_some (S : SortSlice busyPeriod busyLess) (fuel : Nat) (ws we : Time)
    (d : Duration) (hd : 0 < d.ns) (events : List Event) (slots : List TimeSlot)
    (h : findAvailableSlots S fuel ws we d events = some slots) :
    trailingCount we (sweep S ws d events).1 d ≤ fuel ∧
    slots = (sweep S ws d events).2 ++
      packFrom d (trailingCount we (sweep S ws d events).1 d) (sweep S ws d events).1 := by
  rw [findAvailableSlots_eq S fuel ws we d hd] at h
  split_ifs at h with hf
  exact ⟨hf, (Option.some.inj h).symm⟩

/-- With the budget `trailingCount`, `findAvailableSlots` returns. -/
theorem findAvailableSlots_returns (S : SortSlice busyPeriod busyLess) (ws we : Time)
    (d : Duration) (hd : 0 < d.ns) (events : List Event) :
    ∃ slots, findAvailableSlots S (trailingCount we (sweep S ws d events).1 d) ws we d events =
      some slots := by
  rw [findAvailableSlots_eq S _ ws we d hd, if_pos (le_refl _)]
  exact ⟨_, rfl⟩

/-- A slot disjoint from every merged period is disjoint from every event. -/
theorem avoids_events (S : SortSlice busyPeriod busyLess) (events : List Event) (s e : Int)
    (h : ∀ m ∈ mergePeriods S (busyPeriodsOf events), e ≤ m.start.ns ∨ m.end_.ns ≤ s) :
    ∀ b ∈ events, e ≤ b.StartTime.ns ∨ b.EndTime.ns ≤ s := by
  intro b hb
  have inv := mergePeriods_inv S (busyPeriodsOf events)
  obtain ⟨m, hm, h1, h2⟩ := inv.absorb _ (mem_run_of_event S events b hb)
  simp only at h1 h2
  rcases h m hm with h3 | h3
  · left; omega
  · right; omega

/-- C2. Non-overlap invariant: for a duration `d > 0`, `findAvailableSlots`
returns, and every slot of every result is disjoint from every merged busy
period and from every event: the slot ends no later than the period starts, or
the period ends no later than the slot starts. -/
theorem slots_avoid_busy (S : SortSlice busyPeriod busyLess) (ws we : Time) (d : Duration)
    (hd : 0 < d.ns) (events : List Event) :
    (∃ slots, findAvailableSlots S (trailingCount we (sweep S ws d events).1 d) ws we d
      events = some slots) ∧
    ∀ (fuel : Nat) (slots : List TimeSlot),
      findAvailableSlots S fuel ws we d events = some slots → ∀ s ∈ slots,
        (∀ m ∈ mergePeriods S (busyPeriodsOf events),
          s.End.ns ≤ m.start.ns ∨ m.end_.ns ≤ s.Start.ns) ∧
        (∀ b ∈ events, s.End.ns ≤ b.StartTime.ns ∨ b.EndTime.ns ≤ s.Start.ns) := by
  refine ⟨findAvailableSlots_returns S ws we d hd events, ?_⟩
  intro fuel slots h s hs
  obtain ⟨_, e⟩ := findAvailableSlots_some S fuel ws we d hd events slots h
  rw [e] at hs
  have hf := (slot_facts S ws we d hd events s hs).2.2.2
  exact ⟨hf, avoids_events S events _ _ hf⟩

/-- C2 at the window 09:00-12:00 with the event 10:00-11:00 and 60-minute
slots. -/
theorem slots_avoid_busy_witness :
    0 < (minutes 60).ns ∧
    ∀ (fuel : Nat) (slots : List TimeSlot),
      findAvailableSlots insertionSorter fuel (clock 9 0) (clock 12 0) (minutes 60)
        [⟨clock 10 0, clock 11 0⟩] = some slots → ∀ s ∈ slots,
        (∀ m ∈ mergePeriods insertionSorter (busyPeriodsOf [⟨clock 10 0, clock 11 0⟩]),
          s.End.ns ≤ m.start.ns ∨ m.end_.ns ≤ s.Start.ns) ∧
        (∀ b ∈ [(⟨clock 10 0, clock 11 0⟩ : Event)],
          s.End.ns ≤ b.StartTime.ns ∨ b.EndTime.ns ≤ s.Start.ns) :=
  ⟨by decide,
    (slots_avoid_busy insertionSorter (clock 9 0) (clock 12 0) (minutes 60) (by decide)
      [⟨clock 10 0, clock 11 0⟩]).2⟩

/-- C3, as amended. Containment invariant: for a duration `d > 0`,
`findAvailableSlots` returns, and every slot of every result starts at or after
`windowStart`; it ends at or before `windowEnd` provided that no event starts
after `windowEnd`. -/
theorem slots_within_window (S : SortSlice busyPeriod busyLess) (ws we : Time) (d : Duration)
    (hd : 0 < d.ns) (events : List Event) :
    (∃ slots, findAvailableSlots S (trailingCount we (sweep S ws d events).1 d) ws we d
      events = some slots) ∧
    ∀ (fuel : Nat) (slots : List TimeSlot),
      findAvailableSlots S fuel ws we d events = some slots → ∀ s ∈ slots,
        ws.ns ≤ s.Start.ns ∧
        ((∀ b ∈ events, b.StartTime.ns ≤ we.ns) → s.End.ns ≤ we.ns) := by
  refine ⟨findAvailableSlots_returns S ws we d hd events, ?_⟩
  intro fuel slots h s hs
  obtain ⟨_, e⟩ := findAvailableSlots_some S fuel ws we d hd events slots h
  rw [e] at hs
  obtain ⟨h1, _, h3, _⟩ := slot_facts S ws we d hd events s hs
  refine ⟨h1, ?_⟩
  intro hb
  rcases h3 with h3 | ⟨m, hm, h3⟩
  · exact h3
  · have inv := mergePeriods_inv S (busyPeriodsOf events)
    obtain ⟨p, hp, e1⟩ := inv.origin m hm
    obtain ⟨b, hb', e2⟩ := event_of_mem_run S events p hp
    have := hb b hb'
    rw [e2] at e1
    simp only at e1
    omega

/-- The amended C3 at the window 09:00-12:00 with the event 10:00-11:00 and
60-minute slots. -/
theorem slots_within_window_witness :
    0 < (minutes 60).ns ∧
    (∀ b ∈ [(⟨clock 10 0, clock 11 0⟩ : Event)], b.StartTime.ns ≤ (clock 12 0).ns) ∧
    ∀ (fuel : Nat) (slots : List TimeSlot),
      findAvailableSlots insertionSorter fuel (clock 9 0) (clock 12 0) (minutes 60)
        [⟨clock 10 0, clock 11 0⟩] = some slots → ∀ s ∈ slots,
        (clock 9 0).ns ≤ s.Start.ns ∧ s.End.ns ≤ (clock 12 0).ns :=
  ⟨by decide, by decide, fun fuel slots h s hs =>
    ⟨((slots_within_window insertionSorter (clock 9 0) (clock 12 0) (minutes 60) (by decide)
        [⟨clock 10 0, clock 11 0⟩]).2 fuel slots h s hs).1,
      ((slots_within_window insertionSorter (clock 9 0) (clock 12 0) (minutes 60) (by decide)
        [⟨clock 10 0, clock 11 0⟩]).2 fuel slots h s hs).2 (by decide)⟩⟩

/-- C3 as stated fails: in the window 09:00-10:00, with a 120-minute duration and
the single event 12:00-13:00, `findAvailableSlots` returns the slot 09:00-11:00,
which ends after the window does. -/
theorem slots_within_window_counterexample :
    (clock 9 0).ns < (clock 10 0).ns ∧ 0 < (minutes 120).ns ∧
    (findAvailableSlots insertionSorter 0 (clock 9 0) (clock 10 0) (minutes 120)
        [⟨clock 12 0, clock 13 0⟩]).map (List.map TimeSlot.span) =
      some [((clock 9 0).ns, (clock 11 0).ns)] ∧
    ¬ (clock 11 0).ns ≤ (clock 10 0).ns := by
  decide

/-- C6. Feasibility: for a duration `d > 0` and events that each start before
`windowEnd`, `findAvailableSlots` returns, and what it returns is the empty list
exactly when no placement is feasible, that is, when there is no instant `t` with
`windowStart <= t`, `t + d <= windowEnd` and, for every event `b`,
`t + d <= b.start` or `b.end <= t`. -/
theorem empty_iff_infeasible (S : SortSlice busyPeriod busyLess) (ws we : Time) (d : Duration)
    (hd : 0 < d.ns) (events : List Event) (hb : ∀ b ∈ events, b.StartTime.ns < we.ns) :
    (∃ slots, findAvailableSlots S (trailingCount we (sweep S ws d events).1 d) ws we d
      events = some slots) ∧
    ∀ fuel : Nat,
      findAvailableSlots S fuel ws we d events = some [] ↔
        ¬ ∃ t : Int, ws.ns ≤ t ∧ t + d.ns ≤ we.ns ∧
          ∀ b ∈ events, t + d.ns ≤ b.StartTime.ns ∨ b.EndTime.ns ≤ t := by
  refine ⟨findAvailableSlots_returns S ws we d hd events, ?_⟩
  intro fuel
  have inv := mergePeriods_inv S (busyPeriodsOf events)
  constructor
  · intro h
    obtain ⟨_, e⟩ := findAvailableSlots_some S fuel ws we d hd events [] h
    have e' := List.append_eq_nil.mp e.symm
    rintro ⟨t, h1, h2, h3⟩
    have hav : ∀ m ∈ mergePeriods S (busyPeriodsOf events),
        t + d.ns ≤ m.start.ns ∨ m.end_.ns ≤ t := by
      apply inv.avoid t (t + d.ns) (by omega)
      intro p hp
      obtain ⟨b, hb', e2⟩ := event_of_mem_run S events p hp
      rw [e2]
      exact h3 b hb'
    rcases foldl_gapStep_feasible d hd t (mergePeriods S (busyPeriodsOf events)) ws []
      (Or.inr h1) hav with hne | hcur
    · exact hne e'.1
    · have hcur' : (sweep S ws d events).1.ns ≤ t := hcur
      have hlen := congrArg List.length e'.2
      rw [packFrom_length, List.length_nil] at hlen
      have hspec := (trailingCount_spec we (sweep S ws d events).1 d hd).2
      rw [hlen] at hspec
      simp only [Nat.cast_zero, zero_add, one_mul] at hspec
      omega
  · intro hno
    have hnil : (sweep S ws d events).2 ++
        packFrom d (trailingCount we (sweep S ws d events).1 d) (sweep S ws d events).1 = [] := by
      apply List.eq_nil_iff_forall_not_mem.mpr
      intro s hs
      obtain ⟨h1, h2, h3, h4⟩ := slot_facts S ws we d hd events s hs
      apply hno
      refine ⟨s.Start.ns, h1, ?_, ?_⟩
      · rcases h3 with h3 | ⟨m, hm, h3⟩
        · omega
        · obtain ⟨p, hp, e1⟩ := inv.origin m hm
          obtain ⟨b, hb', e2⟩ := event_of_mem_run S events p hp
          have := hb b hb'
          rw [e2] at e1
          simp only at e1
          omega
      · rw [← h2]
        exact avoids_events S events _ _ h4
    have hz : trailingCount we (sweep S ws d events).1 d = 0 := by
      have hlen := congrArg List.length (List.append_eq_nil.mp hnil).2
      rwa [packFrom_length, List.length_nil] at hlen
    rw [findAvailableSlots_eq S fuel ws we d hd, if_pos (by omega), hnil]

/-- C6 at the window 09:00-12:00 with the events 09:00-10:00 and 10:30-12:00 and
a 60-minute duration: the half-hour gap is too short, the result is the empty
list and no placement is feasible. -/
theorem empty_iff_infeasible_witness :
    0 < (minutes 60).ns ∧
    (∀ b ∈ [(⟨clock 9 0, clock 10 0⟩ : Event), ⟨clock 10 30, clock 12 0⟩],
      b.StartTime.ns < (clock 12 0).ns) ∧
    findAvailableSlots insertionSorter 0 (clock 9 0) (clock 12 0) (minutes 60)
      [⟨clock 9 0, clock 10 0⟩, ⟨clock 10 30, clock 12 0⟩] = some [] ∧
    ¬ ∃ t : Int, (clock 9 0).ns ≤ t ∧ t + (minutes 60).ns ≤ (clock 12 0).ns ∧
      ∀ b ∈ [(⟨clock 9 0, clock 10 0⟩ : Event), ⟨clock 10 30, clock 12 0⟩],
        t + (minutes 60).ns ≤ b.StartTime.ns ∨ b.EndTime.ns ≤ t :=
  ⟨by decide, by decide, rfl,
    ((empty_iff_infeasible insertionSorter (clock 9 0) (clock 12 0) (minutes 60) (by decide)
      [⟨clock 9 0, clock 10 0⟩, ⟨clock 10 30, clock 12 0⟩] (by decide)).2 0).mp rfl⟩

/-! ## Selection -/

/-- The sort of the slots puts a best slot first. -/
theorem rankFirst_best (T : SortSlice TimeSlot slotLess) (scored : List TimeSlot)
    (hne : scored ≠ []) :
    ∃ c, rankFirst T scored = Except.ok (some c) ∧ c ∈ scored ∧
      (∀ x ∈ scored, x.Score ≤ c.Score) ∧
      ∀ x ∈ scored, x.Score = c.Score → c.Start.ns ≤ x.Start.ns := by
  have hperm := T.perm scored
  have hsorted := T.sorted scored
  cases hrun : T.run scored with
  | nil =>
    rw [hrun] at hperm
    exact absurd hperm.symm.eq_nil hne
  | cons c rest =>
    rw [hrun] at hperm hsorted
    rw [List.pairwise_cons] at hsorted
    have hall : ∀ x ∈ scored, slotLess x c = false ∨ x = c := by
      intro x hx
      rcases List.mem_cons.mp (hperm.mem_iff.mpr hx) with e | hx'
      · exact Or.inr e
      · exact Or.inl (hsorted.1 x hx')
    refine ⟨c, by simp [rankFirst, hrun], hperm.mem_iff.mp (List.mem_cons_self _ _), ?_, ?_⟩
    · intro x hx
      rcases hall x hx with h | h
      · unfold slotLess at h
        split_ifs at h with he
        · omega
        · simpa using h
      · rw [h]
    · intro x hx he
      rcases hall x hx with h | h
      · unfold slotLess at h
        rw [if_pos he] at h
        simpa [Time.Before] using h
      · rw [h]

/-- C4. Selection: the selection step of `FindOptimalSlot` returns no slot, with
no error, exactly when the list of candidate slots is empty; otherwise it returns
a member `c` of the scored list such that no candidate has a higher score and
every candidate with the same score starts at or after `c`. The same holds of
the sort-and-pick step on any non-empty list of scored slots. -/
theorem select_best (T : SortSlice TimeSlot slotLess) (availableSlots : List TimeSlot)
    (events : List Event) :
    (selectSlot T availableSlots events = Except.ok none ↔
      scoreSlots availableSlots events = []) ∧
    (scoreSlots availableSlots events ≠ [] →
      ∃ c, selectSlot T availableSlots events = Except.ok (some c) ∧
        c ∈ scoreSlots availableSlots events ∧
        (∀ x ∈ scoreSlots availableSlots events, x.Score ≤ c.Score) ∧
        ∀ x ∈ scoreSlots availableSlots events, x.Score = c.Score →
          c.Start.ns ≤ x.Start.ns) ∧
    ∀ scored : List TimeSlot, scored ≠ [] →
      ∃ c, rankFirst T scored = Except.ok (some c) ∧ c ∈ scored ∧
        (∀ x ∈ scored, x.Score ≤ c.Score) ∧
        ∀ x ∈ scored, x.Score = c.Score → c.Start.ns ≤ x.Start.ns := by
  have hnil : scoreSlots availableSlots events = [] ↔ availableSlots = [] := by
    simp [scoreSlots]
  refine ⟨?_, ?_, fun scored hne => rankFirst_best T scored hne⟩
  · rw [hnil]
    constructor
    · intro h
      by_contra hne
      have hne' : scoreSlots availableSlots events ≠ [] := fun e => hne (hnil.mp e)
      obtain ⟨c, hc, _⟩ := rankFirst_best T _ hne'
      have hlen : ¬ availableSlots.length = 0 := by
        simpa [List.length_eq_zero] using hne
      rw [selectSlot, if_neg hlen, hc] at h
      cases h
    · intro h
      simp [selectSlot, h]
  · intro hne
    have hlen : ¬ availableSlots.length = 0 := by
      intro h0
      exact hne (hnil.mpr (List.length_eq_zero.mp h0))
    obtain ⟨c, hc, h1, h2, h3⟩ := rankFirst_best T _ hne
    exact ⟨c, by rw [selectSlot, if_neg hlen, hc], h1, h2, h3⟩

/-! ## The score -/

/-- Saturation does not change how a difference of instants compares with the
constants of `ScoreSlot`. -/
theorem Time.Sub_compare (t u : Time) :
    (0 < (t.Sub u).ns ↔ u.ns < t.ns) ∧ ((t.Sub u).ns = 0 ↔ t.ns = u.ns) ∧
    ((t.Sub u).ns < bufferTime ↔ t.ns - u.ns < 900000000000) ∧
    ((t.Sub u).ns < 30 * Minute ↔ t.ns - u.ns < 1800000000000) := by
  rcases Time.Sub_ns t u with ⟨h, e⟩ | ⟨h, e⟩ | ⟨h1, h2, e⟩ <;> rw [e] <;>
    simp only [minDuration, maxDuration, bufferTime, Minute, Second] at * <;>
    refine ⟨?_, ?_, ?_, ?_⟩ <;> omega

/-- One run of the first loop of `ScoreSlot` adds an amount that does not depend
on the score so far. -/
theorem bufferStep_add (slot : TimeSlot) (score : Int) (e : Event) :
    bufferStep slot score e = score + bufferStep slot 0 e := by
  unfold bufferStep
  simp only
  split_ifs <;> omega

/-- One run of the second loop of `ScoreSlot` adds an amount that does not depend
on the score so far. -/
theorem fragmentStep_add (slot : TimeSlot) (score : Int) (e : Event) :
    fragmentStep slot score e = score + fragmentStep slot 0 e := by
  unfold fragmentStep
  simp only
  split_ifs <;> omega

theorem foldl_bufferStep (slot : TimeSlot) : ∀ (events : List Event) (score : Int),
    events.foldl (bufferStep slot) score =
      score + (events.map (fun e => bufferStep slot 0 e)).sum
  | [], score => by simp
  | e :: events, score => by
    rw [List.foldl_cons, foldl_bufferStep slot events, bufferStep_add, List.map_cons,
      List.sum_cons]
    ring

theorem foldl_fragmentStep (slot : TimeSlot) : ∀ (events : List Event) (score : Int),
    events.foldl (fragmentStep slot) score =
      score + (events.map (fun e => fragmentStep slot 0 e)).sum
  | [], score => by simp
  | e :: events, score => by
    rw [List.foldl_cons, foldl_fragmentStep slot events, fragmentStep_add, List.map_cons,
      List.sum_cons]
    ring

/-- What the two loops together add for one event. -/
theorem event_contribution (slot : TimeSlot) (hs : slot.Start.ns < slot.End.ns) (e : Event)
    (he : e.StartTime.ns ≤ e.EndTime.ns) :
    bufferStep slot 0 e + fragmentStep slot 0 e = closedFormEvent slot e := by
  obtain ⟨a1, a2, a3, a4⟩ := Time.Sub_compare slot.Start e.EndTime
  obtain ⟨b1, b2, b3, b4⟩ := Time.Sub_compare e.StartTime slot.End
  unfold bufferStep fragmentStep closedFormEvent closedFormGap
  simp only [a1, a2, a3, a4, b1, b2, b3, b4]
  simp only [Minute, Second]
  clear a1 a2 a3 a4 b1 b2 b3 b4
  by_cases hx : e.EndTime.ns ≤ slot.Start.ns
  · -- the event ends at or before the slot starts
    have hy1 : ¬ slot.End.ns < e.StartTime.ns := by omega
    have hy2 : ¬ e.StartTime.ns = slot.End.ns := by omega
    simp only [hx, hy1, hy2, false_and, if_false, if_true, or_false]
    split_ifs <;> omega
  · have hx1 : ¬ e.EndTime.ns < slot.Start.ns := by omega
    have hx2 : ¬ slot.Start.ns = e.EndTime.ns := by omega
    simp only [hx, hx1, hx2, false_and, if_false, false_or]
    by_cases hy : slot.End.ns ≤ e.StartTime.ns
    · -- the event starts at or after the slot ends
      simp only [hy, if_true]
      split_ifs <;> omega
    · -- the event overlaps the slot
      have hy1 : ¬ slot.End.ns < e.StartTime.ns := by omega
      have hy2 : ¬ e.StartTime.ns = slot.End.ns := by omega
      simp [hy, hy1, hy2]

theorem sum_contributions (slot : TimeSlot) (hs : slot.Start.ns < slot.End.ns) :
    ∀ events : List Event, (∀ e ∈ events, e.StartTime.ns ≤ e.EndTime.ns) →
      (events.map (fun e => bufferStep slot 0 e)).sum +
        (events.map (fun e => fragmentStep slot 0 e)).sum =
      (events.map (closedFormEvent slot)).sum
  | [], _ => by simp
  | e :: events, he => by
    have h1 := event_contribution slot hs e (he e (List.mem_cons_self _ _))
    have h2 := sum_contributions slot hs events
      (fun x hx => he x (List.mem_cons_of_mem _ hx))
    simp only [List.map_cons, List.sum_cons]
    omega

/-- C5. Score closed form: for a slot with `Start < End` and events each with
`StartTime <= EndTime`, `ScoreSlot` is `B(h)` plus the sum over the events of
`c(e)`, where `h` is the hour of the slot's start, `B` is 135 on 9..12, 125 on
13..16, 85 at 17 and 45 elsewhere, and `c(e)` is +5 at gap 0, -35 for a gap under
15 minutes, -25 for a gap from 15 to under 30 minutes, and 0 for a longer gap or
an event that overlaps the slot. -/
theorem ScoreSlot_closed_form (slot : TimeSlot) (hs : slot.Start.ns < slot.End.ns)
    (events : List Event) (he : ∀ e ∈ events, e.StartTime.ns ≤ e.EndTime.ns) :
    ScoreSlot slot events =
      closedFormBase slot.Start.Hour + (events.map (closedFormEvent slot)).sum := by
  have hsum := sum_contributions slot hs events he
  unfold ScoreSlot
  simp only
  rw [foldl_fragmentStep, foldl_bufferStep]
  unfold closedFormBase
  split_ifs <;> omega

/-- C5 at the slot 09:00-10:00 with the events 10:00-11:00 (flush after the slot)
and 08:40-08:50 (ten minutes before it): 135 + 5 - 35 = 105. -/
theorem ScoreSlot_closed_form_witness :
    (clock 9 0).ns < (clock 10 0).ns ∧
    (∀ e ∈ [(⟨clock 10 0, clock 11 0⟩ : Event), ⟨clock 8 40, clock 8 50⟩],
      e.StartTime.ns ≤ e.EndTime.ns) ∧
    ScoreSlot ⟨clock 9 0, clock 10 0, 0⟩ [⟨clock 10 0, clock 11 0⟩, ⟨clock 8 40, clock 8 50⟩] =
      105 :=
  ⟨by decide, by decide,
    (ScoreSlot_closed_form ⟨clock 9 0, clock 10 0, 0⟩ (by decide)
      [⟨clock 10 0, clock 11 0⟩, ⟨clock 8 40, clock 8 50⟩] (by decide)).trans (by decide)⟩

/-! ## Why the duration must be positive -/

/-- With a zero duration and a cursor not after `windowEnd`, the trailing loop
never leaves: no budget is enough. -/
theorem trailingLoop_zero_duration (we : Time) (d : Duration) (hd : d.ns = 0) :
    ∀ (fuel : Nat) (cur : Time) (slots : List TimeSlot), cur.ns ≤ we.ns →
      trailingLoop we d fuel cur slots = none
  | 0, cur, slots, h => by
    have hc : d.ns ≤ (we.Sub cur).ns := by
      rcases Time.Sub_ns we cur with ⟨h1, e⟩ | ⟨h1, e⟩ | ⟨h1, h2, e⟩ <;> rw [e] <;>
        simp only [minDuration, maxDuration] at * <;> omega
    have ha : ¬ we.ns < cur.ns + d.ns := by omega
    unfold trailingLoop
    simp [hc, ha]
  | fuel + 1, cur, slots, h => by
    have hc : d.ns ≤ (we.Sub cur).ns := by
      rcases Time.Sub_ns we cur with ⟨h1, e⟩ | ⟨h1, e⟩ | ⟨h1, h2, e⟩ <;> rw [e] <;>
        simp only [minDuration, maxDuration] at * <;> omega
    have ha : ¬ we.ns < cur.ns + d.ns := by omega
    have ih := trailingLoop_zero_duration we d hd fuel (cur.Add d)
      (slots ++ [{ Start := cur, End := cur.Add d, Score := 0 }])
      (by simp only [Time.Add_ns]; omega)
    unfold trailingLoop
    simp [hc, ha, ih]

/-! ## Order independence -/

/-- Where a period of `mergedPeriods` comes from after one run of the merge loop:
it is the new period, an old one, or the last one with its end moved to the end
of the new period. -/
theorem mergeStep_mem (M : List busyPeriod) (p m : busyPeriod) (hm : m ∈ mergeStep M p) :
    m = p ∨ m ∈ M ∨
      ∃ last ∈ M, last.end_.ns < p.end_.ns ∧ m = { last with end_ := p.end_ } := by
  rcases mergeStep_cases M p with ⟨hM, e⟩ | ⟨M0, last, hM, _, e⟩ | ⟨M0, last, hM, _, h2, e⟩ |
      ⟨M0, last, hM, _, _, e⟩
  · rw [e] at hm
    exact Or.inl (List.mem_singleton.mp hm)
  · rw [e, ← hM] at hm
    rcases List.mem_append.mp hm with h | h
    · exact Or.inr (Or.inl h)
    · exact Or.inl (List.mem_singleton.mp h)
  · rw [e] at hm
    rcases List.mem_append.mp hm with h | h
    · exact Or.inr (Or.inl (by rw [hM]; exact List.mem_append_left _ h))
    · exact Or.inr (Or.inr ⟨last, by rw [hM]; simp, h2, List.mem_singleton.mp h⟩)
  · rw [e] at hm
    exact Or.inr (Or.inl hm)

/-- A property of periods that survives the extension of a period to the end of
another holds of every merged period once it holds of every input. -/
theorem foldl_mergeStep_forall (Q : busyPeriod → Prop)
    (hQ : ∀ last p : busyPeriod, Q last → Q p → last.end_.ns < p.end_.ns →
      Q { last with end_ := p.end_ }) :
    ∀ (R M : List busyPeriod), (∀ m ∈ M, Q m) → (∀ p ∈ R, Q p) →
      ∀ m ∈ R.foldl mergeStep M, Q m
  | [], M, hM, _ => by simpa using hM
  | p :: R, M, hM, hR => by
    rw [List.foldl_cons]
    apply foldl_mergeStep_forall Q hQ R (mergeStep M p)
    · intro m hm
      rcases mergeStep_mem M p m hm with h | h | ⟨last, hl, h2, h⟩
      · rw [h]; exact hR p (List.mem_cons_self _ _)
      · exact hM m h
      · rw [h]; exact hQ last p (hM last hl) (hR p (List.mem_cons_self _ _)) h2
    · intro q hq
      exact hR q (List.mem_cons_of_mem _ hq)

/-- Merged periods end no earlier than they start when the inputs do. -/
theorem mergePeriods_valid (S : SortSlice busyPeriod busyLess) (l : List busyPeriod)
    (hl : ∀ b ∈ l, b.start.ns ≤ b.end_.ns) :
    ∀ m ∈ mergePeriods S l, m.start.ns ≤ m.end_.ns := by
  apply foldl_mergeStep_forall (fun m => m.start.ns ≤ m.end_.ns)
  · intro last p h1 _ h3
    simp only
    omega
  · intro m hm
    exact absurd hm (List.not_mem_nil m)
  · intro p hp
    exact hl p ((S.perm l).mem_iff.mp hp)

/-- The end of a merged period is the `end` value of one of the inputs, location
included. -/
theorem mergePeriods_end_origin (S : SortSlice busyPeriod busyLess) (l : List busyPeriod) :
    ∀ m ∈ mergePeriods S l, ∃ b ∈ l, m.end_ = b.end_ := by
  apply foldl_mergeStep_forall (fun m => ∃ b ∈ l, m.end_ = b.end_)
  · intro last p _ h2 _
    exact h2
  · intro m hm
    exact absurd hm (List.not_mem_nil m)
  · intro p hp
    exact ⟨p, (S.perm l).mem_iff.mp hp, rfl⟩

/-- Two different merged periods lie apart, one wholly before the other. -/
theorem merged_apart {P M : List busyPeriod} (inv : MergeInv P M) {a b : busyPeriod}
    (ha : a ∈ M) (hb : b ∈ M) :
    a = b ∨ a.end_.ns < b.start.ns ∨ b.end_.ns < a.start.ns := by
  by_cases hab : a = b
  · exact Or.inl hab
  · right
    have hsym : Symmetric (fun a b : busyPeriod =>
        a.end_.ns < b.start.ns ∨ b.end_.ns < a.start.ns) := fun _ _ h => h.symm
    exact List.Pairwise.forall hsym (inv.sep.imp (fun h => Or.inl h)) ha hb hab

/-- An instant covered by one merged list is covered by the other when the two
were folded from the same periods. -/
theorem merged_cover_transfer {P P' M M' : List busyPeriod} (inv : MergeInv P M)
    (inv' : MergeInv P' M') (hP : ∀ b, b ∈ P ↔ b ∈ P') (t : Int) {m : busyPeriod}
    (hm : m ∈ M) (h1 : m.start.ns ≤ t) (h2 : t < m.end_.ns) :
    ∃ m' ∈ M', m'.start.ns ≤ t ∧ t < m'.end_.ns := by
  obtain ⟨b, hb, h⟩ := (inv.cover t).mp ⟨m, hm, h1, h2⟩
  exact (inv'.cover t).mpr ⟨b, (hP b).mp hb, h⟩

/-- Every merged period has, in any other merged list folded from the same
well-formed periods, a period with the same start and end instants. -/
theorem merged_span_mem {P P' M M' : List busyPeriod} (inv : MergeInv P M)
    (inv' : MergeInv P' M') (hP : ∀ b, b ∈ P ↔ b ∈ P')
    (hvalP : ∀ b ∈ P, b.start.ns ≤ b.end_.ns)
    (hvalM : ∀ m ∈ M, m.start.ns ≤ m.end_.ns) (hvalM' : ∀ m ∈ M', m.start.ns ≤ m.end_.ns)
    (m : busyPeriod) (hm : m ∈ M) :
    ∃ m' ∈ M', m'.start.ns = m.start.ns ∧ m'.end_.ns = m.end_.ns := by
  have hP' : ∀ b, b ∈ P' ↔ b ∈ P := fun b => (hP b).symm
  obtain ⟨b, hb, e⟩ := inv.origin m hm
  obtain ⟨m', hm', h1, h2⟩ := inv'.absorb b ((hP b).mp hb)
  have hbv := hvalP b hb
  have hmv := hvalM m hm
  have hmv' := hvalM' m' hm'
  have hstart : m'.start.ns = m.start.ns := by
    by_contra hne
    have hlt : m'.start.ns < m.start.ns := by omega
    obtain ⟨m3, hm3, h3, h4⟩ := merged_cover_transfer inv' inv hP' (m.start.ns - 1) hm'
      (by omega) (by omega)
    rcases merged_apart inv hm3 hm with h | h | h
    · rw [h] at h3; omega
    · omega
    · omega
  refine ⟨m', hm', hstart, ?_⟩
  by_contra hne
  rcases lt_or_gt_of_ne hne with hlt | hgt
  · -- the period of `M'` ends first
    obtain ⟨m3, hm3, h3, h4⟩ := merged_cover_transfer inv inv' hP m'.end_.ns hm
      (by omega) hlt
    rcases merged_apart inv' hm3 hm' with h | h | h
    · rw [h] at h4; omega
    · omega
    · omega
  · -- the period of `M` ends first
    obtain ⟨m3, hm3, h3, h4⟩ := merged_cover_transfer inv' inv hP' m.end_.ns hm'
      (by omega) hgt
    rcases merged_apart inv hm3 hm with h | h | h
    · rw [h] at h4; omega
    · omega
    · omega

/-- In a list of spans with strictly increasing first components, the first
component identifies the span. -/
theorem span_eq_of_fst_eq : ∀ {l : List (Int × Int)},
    l.Pairwise (fun x y => x.1 < y.1) →
    ∀ {a b : Int × Int}, a ∈ l → b ∈ l → a.1 = b.1 → a = b
  | [], _, _, _, ha, _, _ => absurd ha (List.not_mem_nil _)
  | x :: t, h, a, b, ha, hb, e => by
    rw [List.pairwise_cons] at h
    rcases List.mem_cons.mp ha with ha | ha <;> rcases List.mem_cons.mp hb with hb | hb
    · rw [ha, hb]
    · have := h.1 b hb
      rw [ha] at e
      omega
    · have := h.1 a ha
      rw [hb] at e
      omega
    · exact span_eq_of_fst_eq h.2 ha hb e

/-- The spans of a merged list of well-formed periods start in strictly
increasing order. -/
theorem merged_spans_increasing {P M : List busyPeriod} (inv : MergeInv P M)
    (hvalM : ∀ m ∈ M, m.start.ns ≤ m.end_.ns) :
    (M.map busyPeriod.span).Pairwise (fun x y => x.1 < y.1) := by
  rw [List.pairwise_map]
  have h : M.Pairwise (fun a b => a.start.ns ≤ a.end_.ns ∧ a.end_.ns < b.start.ns) := by
    rw [List.pairwise_iff_forall_sublist] 
    intro a b hab
    have hsep := List.pairwise_iff_forall_sublist.mp inv.sep hab
    exact ⟨hvalM a (hab.subset (List.mem_cons_self _ _)), hsep⟩
  refine h.imp ?_
  intro a b hab
  simp only [busyPeriod.span]
  omega

/-- The merged list is the same, instant for instant, whatever the order in
which the well-formed periods were folded. -/
theorem merged_spans_eq {P P' M M' : List busyPeriod} (inv : MergeInv P M)
    (inv' : MergeInv P' M') (hP : ∀ b, b ∈ P ↔ b ∈ P')
    (hvalP : ∀ b ∈ P, b.start.ns ≤ b.end_.ns)
    (hvalM : ∀ m ∈ M, m.start.ns ≤ m.end_.ns) (hvalM' : ∀ m ∈ M', m.start.ns ≤ m.end_.ns) :
    M.map busyPeriod.span = M'.map busyPeriod.span := by
  have hP' : ∀ b, b ∈ P' ↔ b ∈ P := fun b => (hP b).symm
  have hvalP' : ∀ b ∈ P', b.start.ns ≤ b.end_.ns := fun b hb => hvalP b ((hP' b).mp hb)
  have hinc := merged_spans_increasing inv hvalM
  have hinc' := merged_spans_increasing inv' hvalM'
  have hmem : ∀ x, x ∈ M.map busyPeriod.span ↔ x ∈ M'.map busyPeriod.span := by
    intro x
    constructor
    · intro hx
      obtain ⟨m, hm, e⟩ := List.mem_map.mp hx
      obtain ⟨m', hm', e1, e2⟩ := merged_span_mem inv inv' hP hvalP hvalM hvalM' m hm
      refine List.mem_map.mpr ⟨m', hm', ?_⟩
      rw [← e]
      simp only [busyPeriod.span, e1, e2]
    · intro hx
      obtain ⟨m, hm, e⟩ := List.mem_map.mp hx
      obtain ⟨m', hm', e1, e2⟩ := merged_span_mem inv' inv hP' hvalP' hvalM' hvalM m hm
      refine List.mem_map.mpr ⟨m', hm', ?_⟩
      rw [← e]
      simp only [busyPeriod.span, e1, e2]
  have hperm : (M.map busyPeriod.span).Perm (M'.map busyPeriod.span) :=
    (List.perm_ext_iff_of_nodup (hinc.imp (fun h => by intro e; rw [e] at h; omega))
      (hinc'.imp (fun h => by intro e; rw [e] at h; omega))).mpr hmem
  refine List.Perm.eq_of_sorted ?_ (hinc.imp (fun h => le_of_lt h))
    (hinc'.imp (fun h => le_of_lt h)) hperm
  intro a b ha hb hab hba
  exact span_eq_of_fst_eq hinc ha ((hmem b).mpr hb) (le_antisymm hab hba)

/-- Two times at the same instant in the same location are the same value. -/
theorem Time.eq_of_ns_loc : ∀ {t u : Time}, t.ns = u.ns → t.loc = u.loc → t = u
  | ⟨_, _⟩, ⟨_, _⟩, h1, h2 => by
    simp only at h1 h2
    rw [h1, h2]

/-- The difference of two times depends on their instants only. -/
theorem Time.Sub_congr {t t' u u' : Time} (ht : t.ns = t'.ns) (hu : u.ns = u'.ns) :
    t.Sub u = t'.Sub u' := by
  unfold Time.Sub
  simp only [ht, hu]

/-- One run of the gap loop on two periods with the same instants, from cursors at
the same instant: the same cursor instant and the same slot instants. -/
theorem gapStep_span_congr (d : Duration) (hd : 0 < d.ns) (cur cur' : Time)
    (sl sl' : List TimeSlot) (m m' : busyPeriod) (hc : cur.ns = cur'.ns)
    (hs : sl.map TimeSlot.span = sl'.map TimeSlot.span) (hm : m.span = m'.span) :
    (gapStep d (cur, sl) m).1.ns = (gapStep d (cur', sl') m').1.ns ∧
    (gapStep d (cur, sl) m).2.map TimeSlot.span =
      (gapStep d (cur', sl') m').2.map TimeSlot.span := by
  have h1 : m.start.ns = m'.start.ns := congrArg Prod.fst hm
  have h2 : m.end_.ns = m'.end_.ns := congrArg Prod.snd hm
  rw [gapStep_fst, gapStep_fst, gapStep_snd d hd, gapStep_snd d hd]
  constructor
  · rw [hc, h2]
    split_ifs
    · exact h2
    · exact hc
  · rw [hc, h1]
    split_ifs
    · simp [hs, TimeSlot.span, hc]
    · exact hs

/-- The gap loop over two merged lists with the same instants. -/
theorem foldl_gapStep_span_congr (d : Duration) (hd : 0 < d.ns) :
    ∀ (M M' : List busyPeriod), M.map busyPeriod.span = M'.map busyPeriod.span →
      ∀ (cur cur' : Time) (sl sl' : List TimeSlot), cur.ns = cur'.ns →
        sl.map TimeSlot.span = sl'.map TimeSlot.span →
        (M.foldl (gapStep d) (cur, sl)).1.ns = (M'.foldl (gapStep d) (cur', sl')).1.ns ∧
        (M.foldl (gapStep d) (cur, sl)).2.map TimeSlot.span =
          (M'.foldl (gapStep d) (cur', sl')).2.map TimeSlot.span
  | [], [], _, cur, cur', sl, sl', hc, hs => ⟨hc, hs⟩
  | [], _ :: _, h, _, _, _, _, _, _ => by simp at h
  | _ :: _, [], h, _, _, _, _, _, _ => by simp at h
  | m :: M, m' :: M', h, cur, cur', sl, sl', hc, hs => by
    simp only [List.map_cons, List.cons.injEq] at h
    obtain ⟨g1, g2⟩ := gapStep_span_congr d hd cur cur' sl sl' m m' hc hs h.1
    have ih := foldl_gapStep_span_congr d hd M M' h.2 (gapStep d (cur, sl) m).1
      (gapStep d (cur', sl') m').1 (gapStep d (cur, sl) m).2 (gapStep d (cur', sl') m').2 g1 g2
    simpa using ih

/-- One run of the gap loop reads the start of a period as an instant only. -/
theorem gapStep_congr (d : Duration) (st : Time × List TimeSlot) (m m' : busyPeriod)
    (h1 : m.start.ns = m'.start.ns) (h2 : m.end_ = m'.end_) :
    gapStep d st m = gapStep d st m' := by
  unfold gapStep
  simp only [Time.After, Time.Before, Time.Equal, h1, h2,
    @Time.Sub_congr _ _ st.1 st.1 h1 rfl]

/-- The gap loop over two merged lists with the same start instants and the same
end values. -/
theorem foldl_gapStep_congr (d : Duration) :
    ∀ (M M' : List busyPeriod),
      List.Forall₂ (fun m m' => m.start.ns = m'.start.ns ∧ m.end_ = m'.end_) M M' →
      ∀ st : Time × List TimeSlot, M.foldl (gapStep d) st = M'.foldl (gapStep d) st
  | [], [], _, _ => rfl
  | [], _ :: _, h, _ => by cases h
  | _ :: _, [], h, _ => by cases h
  | m :: M, m' :: M', h, st => by
    rw [List.forall₂_cons] at h
    rw [List.foldl_cons, List.foldl_cons, gapStep_congr d st m m' h.1.1 h.1.2]
    exact foldl_gapStep_congr d M M' h.2 _

/-- The score of a slot does not depend on the order of the events. -/
theorem ScoreSlot_perm (slot : TimeSlot) (ev ev' : List Event) (hperm : ev.Perm ev') :
    ScoreSlot slot ev = ScoreSlot slot ev' := by
  unfold ScoreSlot
  simp only
  rw [foldl_fragmentStep, foldl_bufferStep, foldl_fragmentStep, foldl_bufferStep,
    (hperm.map (fun e => bufferStep slot 0 e)).sum_eq,
    (hperm.map (fun e => fragmentStep slot 0 e)).sum_eq]

/-- The merged lists of two permutations of well-formed events, under any two
sorts: the same instants. -/
theorem mergePeriods_span_perm (S S' : SortSlice busyPeriod busyLess) (ev ev' : List Event)
    (hperm : ev.Perm ev') (hvalid : ∀ e ∈ ev, e.StartTime.ns ≤ e.EndTime.ns) :
    (mergePeriods S (busyPeriodsOf ev)).map busyPeriod.span =
      (mergePeriods S' (busyPeriodsOf ev')).map busyPeriod.span := by
  have hl : (busyPeriodsOf ev).Perm (busyPeriodsOf ev') := hperm.map _
  have hP : ∀ b, b ∈ S.run (busyPeriodsOf ev) ↔ b ∈ S'.run (busyPeriodsOf ev') := by
    intro b
    rw [(S.perm _).mem_iff, (S'.perm _).mem_iff, hl.mem_iff]
  have hval : ∀ b ∈ busyPeriodsOf ev, b.start.ns ≤ b.end_.ns := by
    intro b hb
    obtain ⟨e, he, rfl⟩ := List.mem_map.mp hb
    exact hvalid e he
  have hval' : ∀ b ∈ busyPeriodsOf ev', b.start.ns ≤ b.end_.ns := by
    intro b hb
    exact hval b (hl.mem_iff.mpr hb)
  exact merged_spans_eq (mergePeriods_inv S _) (mergePeriods_inv S' _) hP
    (fun b hb => hval b ((S.perm _).mem_iff.mp hb))
    (mergePeriods_valid S _ hval) (mergePeriods_valid S' _ hval')

/-- The state after the gap loop for two permutations of well-formed events: the
same cursor instant and the same slot instants. -/
theorem sweep_span_perm (S S' : SortSlice busyPeriod busyLess) (ws : Time) (d : Duration)
    (hd : 0 < d.ns) (ev ev' : List Event) (hperm : ev.Perm ev')
    (hvalid : ∀ e ∈ ev, e.StartTime.ns ≤ e.EndTime.ns) :
    (sweep S ws d ev).1.ns = (sweep S' ws d ev').1.ns ∧
    (sweep S ws d ev).2.map TimeSlot.span = (sweep S' ws d ev').2.map TimeSlot.span :=
  foldl_gapStep_span_congr d hd _ _ (mergePeriods_span_perm S S' ev ev' hperm hvalid)
    ws ws [] [] rfl rfl

/-- The state after the gap loop for two permutations of well-formed events in
which events that end at the same instant carry the same location: the same
state, locations included. -/
theorem sweep_perm (S S' : SortSlice busyPeriod busyLess) (ws : Time) (d : Duration)
    (ev ev' : List Event) (hperm : ev.Perm ev')
    (hvalid : ∀ e ∈ ev, e.StartTime.ns ≤ e.EndTime.ns)
    (hloc : ∀ e ∈ ev, ∀ e' ∈ ev, e.EndTime.ns = e'.EndTime.ns →
      e.EndTime.loc = e'.EndTime.loc) :
    sweep S ws d ev = sweep S' ws d ev' := by
  have hspan := mergePeriods_span_perm S S' ev ev' hperm hvalid
  have hf : List.Forall₂ (fun m m' : busyPeriod => m.span = m'.span)
      (mergePeriods S (busyPeriodsOf ev)) (mergePeriods S' (busyPeriodsOf ev')) := by
    rw [← List.forall₂_map_right_iff, ← List.forall₂_map_left_iff, List.forall₂_eq_eq_eq]
    exact hspan
  rw [List.forall₂_iff_zip] at hf
  unfold sweep
  apply foldl_gapStep_congr
  rw [List.forall₂_iff_zip]
  refine ⟨hf.1, ?_⟩
  intro m m' hz
  have hs := hf.2 hz
  have hm : m ∈ mergePeriods S (busyPeriodsOf ev) := (List.of_mem_zip hz).1
  have hm' : m' ∈ mergePeriods S' (busyPeriodsOf ev') := (List.of_mem_zip hz).2
  have h1 : m.start.ns = m'.start.ns := congrArg Prod.fst hs
  have h2 : m.end_.ns = m'.end_.ns := congrArg Prod.snd hs
  refine ⟨h1, ?_⟩
  obtain ⟨b, hb, eb⟩ := mergePeriods_end_origin S _ m hm
  obtain ⟨b', hb', eb'⟩ := mergePeriods_end_origin S' _ m' hm'
  obtain ⟨e, he, rfl⟩ := List.mem_map.mp hb
  obtain ⟨e', he', rfl⟩ := List.mem_map.mp hb'
  simp only at eb eb'
  rw [eb, eb'] at h2 ⊢
  exact Time.eq_of_ns_loc h2 (hloc e he e' (hperm.mem_iff.mpr he') h2)

/-- C11, as amended. Order independence: for a duration `d > 0` and two lists of
events that are permutations of each other, every event ending no earlier than
it starts, and for any two sorts of the busy periods, `findAvailableSlots`
returns slot lists with the same start and end instants in the same order, and
`ScoreSlot` gives every slot the same score under both lists. When moreover events
that end at the same instant carry the same location in `EndTime`, the two slot
lists are identical and `FindOptimalSlot` chooses the same slot. -/
theorem order_independent (S S' : SortSlice busyPeriod busyLess)
    (T : SortSlice TimeSlot slotLess) (fuel : Nat) (ws we : Time) (d : Duration)
    (hd : 0 < d.ns) (ev ev' : List Event) (hperm : ev.Perm ev')
    (hvalid : ∀ e ∈ ev, e.StartTime.ns ≤ e.EndTime.ns) :
    (findAvailableSlots S fuel ws we d ev).map (List.map TimeSlot.span) =
      (findAvailableSlots S' fuel ws we d ev').map (List.map TimeSlot.span) ∧
    (∀ slot : TimeSlot, ScoreSlot slot ev = ScoreSlot slot ev') ∧
    ((∀ e ∈ ev, ∀ e' ∈ ev, e.EndTime.ns = e'.EndTime.ns → e.EndTime.loc = e'.EndTime.loc) →
      findAvailableSlots S fuel ws we d ev = findAvailableSlots S' fuel ws we d ev' ∧
      FindOptimalSlot S T fuel ws we d ev = FindOptimalSlot S' T fuel ws we d ev') := by
  refine ⟨?_, fun slot => ScoreSlot_perm slot ev ev' hperm, ?_⟩
  · obtain ⟨h1, h2⟩ := sweep_span_perm S S' ws d hd ev ev' hperm hvalid
    have hcount : trailingCount we (sweep S ws d ev).1 d =
        trailingCount we (sweep S' ws d ev').1 d := by
      unfold trailingCount
      rw [h1]
    rw [findAvailableSlots_eq S fuel ws we d hd, findAvailableSlots_eq S' fuel ws we d hd,
      hcount]
    split_ifs
    · simp only [Option.map_some', List.map_append, h2, packFrom_span, h1]
    · rfl
  · intro hloc
    have hsweep := sweep_perm S S' ws d ev ev' hperm hvalid hloc
    have hfind : findAvailableSlots S fuel ws we d ev =
        findAvailableSlots S' fuel ws we d ev' := by
      unfold findAvailableSlots
      rw [hsweep]
    refine ⟨hfind, ?_⟩
    have hscore : ∀ a : List TimeSlot, selectSlot T a ev = selectSlot T a ev' := by
      intro a
      have : scoreSlots a ev = scoreSlots a ev' := by
        unfold scoreSlots
        apply List.map_congr_left
        intro s _
        rw [ScoreSlot_perm s ev ev' hperm]
      unfold selectSlot
      rw [this]
    unfold FindOptimalSlot
    rw [hfind]
    congr 1
    funext a
    exact hscore a

/-- The amended C11 at the window 09:00-13:00 with the events 10:00-11:00 and
10:00-10:30, all in UTC, in their two orders. -/
theorem order_independent_witness :
    0 < (minutes 60).ns ∧
    [(⟨clock 10 0, clock 11 0⟩ : Event), ⟨clock 10 0, clock 10 30⟩].Perm
      [⟨clock 10 0, clock 10 30⟩, ⟨clock 10 0, clock 11 0⟩] ∧
    (∀ e ∈ [(⟨clock 10 0, clock 11 0⟩ : Event), ⟨clock 10 0, clock 10 30⟩],
      e.StartTime.ns ≤ e.EndTime.ns) ∧
    FindOptimalSlot insertionSorter slotSorter 2 (clock 9 0) (clock 13 0) (minutes 60)
        [⟨clock 10 0, clock 11 0⟩, ⟨clock 10 0, clock 10 30⟩] =
      FindOptimalSlot insertionSorter slotSorter 2 (clock 9 0) (clock 13 0) (minutes 60)
        [⟨clock 10 0, clock 10 30⟩, ⟨clock 10 0, clock 11 0⟩] :=
  ⟨by decide, List.Perm.swap _ _ _, by decide,
    ((order_independent insertionSorter insertionSorter slotSorter 2 (clock 9 0) (clock 13 0)
      (minutes 60) (by decide) [⟨clock 10 0, clock 11 0⟩, ⟨clock 10 0, clock 10 30⟩]
      [⟨clock 10 0, clock 10 30⟩, ⟨clock 10 0, clock 11 0⟩] (List.Perm.swap _ _ _)
      (by decide)).2.2 (by
        intro e he e' he' _
        simp only [List.mem_cons, List.mem_singleton, List.not_mem_nil, or_false] at he he'
        rcases he with rfl | rfl <;> rcases he' with rfl | rfl <;> rfl)).2⟩

/-- C11 as stated fails: two events 10:00-11:00 that end at the same instant, one
read off a UTC clock and one off a clock three hours west, in the window
10:00-13:00 with 60-minute slots. The slots start where the merged period ends,
on the clock of whichever event comes first; in one order `FindOptimalSlot`
chooses 11:00-12:00, in the other 12:00-13:00. -/
theorem order_independent_counterexample :
    0 < (minutes 60).ns ∧
    [(⟨clock 10 0, clock 11 0⟩ : Event), ⟨clock 10 0, ⟨(clock 11 0).ns, zoneWest3⟩⟩].Perm
      [⟨clock 10 0, ⟨(clock 11 0).ns, zoneWest3⟩⟩, ⟨clock 10 0, clock 11 0⟩] ∧
    (∀ e ∈ [(⟨clock 10 0, clock 11 0⟩ : Event), ⟨clock 10 0, ⟨(clock 11 0).ns, zoneWest3⟩⟩],
      e.StartTime.ns ≤ e.EndTime.ns) ∧
    chosenSpan (FindOptimalSlot insertionSorter slotSorter 2 (clock 10 0) (clock 13 0)
        (minutes 60) [⟨clock 10 0, clock 11 0⟩, ⟨clock 10 0, ⟨(clock 11 0).ns, zoneWest3⟩⟩]) =
      some ((clock 11 0).ns, (clock 12 0).ns) ∧
    chosenSpan (FindOptimalSlot insertionSorter slotSorter 2 (clock 10 0) (clock 13 0)
        (minutes 60) [⟨clock 10 0, ⟨(clock 11 0).ns, zoneWest3⟩⟩, ⟨clock 10 0, clock 11 0⟩]) =
      some ((clock 12 0).ns, (clock 13 0).ns) :=
  ⟨by decide, List.Perm.swap _ _ _, by decide, by decide, by decide⟩

end services
